import Mathlib

set_option maxRecDepth 8000

/-!
Verification of ComfyUI-GlifNodes (src/nodes.py) against its specification.

Strings are modelled as lists of characters (`Str`); the Python string
operations the source uses (strip, lower, startswith, endswith, `in`,
split, join, replace, slicing) are defined below with matching semantics.
The URL resolver `get_lora_from_url` is modelled as a pure function over an
abstract environment (hash function, CIVITAI_API_KEY, network, cache root,
hub download client) and an abstract filesystem (the list of cache files
that already exist), returning an outcome together with the network
requests and artifact writes it performed, in order.
-/

abbrev Str := List Char

/-- Characters stripped by Python str.strip(): space, tab, newline,
carriage return, vertical tab, form feed. -/
def isSpaceChar (c : Char) : Bool :=
  c == ' ' || c == '\t' || c == '\n' || c == '\r' || c == Char.ofNat 11 || c == Char.ofNat 12

/-- Python str.strip(): remove whitespace from both ends. -/
def trimS (s : Str) : Str :=
  ((s.dropWhile isSpaceChar).reverse.dropWhile isSpaceChar).reverse

/-- Python str.lower() (sufficient for the ASCII URLs of the source). -/
def toLowerS (s : Str) : Str := s.map Char.toLower

/-- Boolean "p is a prefix of s" (Python str.startswith). -/
def pfx : Str → Str → Bool
  | [], _ => true
  | _ :: _, [] => false
  | a :: as, b :: bs => a == b && pfx as bs

/-- Python str.endswith. -/
def endsWithS (p s : Str) : Bool := pfx p.reverse s.reverse

/-- Python substring containment, `p in s`. -/
def containsSub (p : Str) : Str → Bool
  | [] => p == []
  | c :: rest => pfx p (c :: rest) || containsSub p rest

/-- Python str.split(sep) for a one-character separator (keeps empty parts). -/
def splitOnChar (sep : Char) : Str → List Str
  | [] => [[]]
  | c :: rest =>
    if c == sep then [] :: splitOnChar sep rest
    else
      match splitOnChar sep rest with
      | [] => [[c]]
      | x :: xs => (c :: x) :: xs

/-- Python sep.join(xs). -/
def joinSep (sep : Str) : List Str → Str
  | [] => []
  | [x] => x
  | x :: xs => x ++ sep ++ joinSep sep xs

/-- Python str.replace(pat, rep): replace every non-overlapping occurrence,
scanning left to right. The source never calls it with an empty pattern;
for an empty pattern this returns the string unchanged. -/
def replaceSub (pat rep : Str) : Str → Str
  | [] => []
  | c :: rest =>
    if h : pat ≠ [] ∧ pfx pat (c :: rest) = true then
      rep ++ replaceSub pat rep (List.drop pat.length (c :: rest))
    else
      c :: replaceSub pat rep rest
termination_by s => s.length
decreasing_by
  · have hp : 1 ≤ pat.length := by
      cases pat with
      | nil => exact absurd rfl h.1
      | cons a as => simp
    simp only [List.length_drop, List.length_cons]
    omega
  · simp only [List.length_cons]
    omega

/-- Python str.split(sep) for a multi-character separator, scanning left to
right with non-overlapping matches. -/
def splitOnSub (sep : Str) : Str → List Str
  | [] => [[]]
  | c :: rest =>
    if h : sep ≠ [] ∧ pfx sep (c :: rest) = true then
      [] :: splitOnSub sep (List.drop sep.length (c :: rest))
    else
      match splitOnSub sep rest with
      | [] => [[c]]
      | x :: xs => (c :: x) :: xs
termination_by s => s.length
decreasing_by
  · have hp : 1 ≤ sep.length := by
      cases sep with
      | nil => exact absurd rfl h.1
      | cons a as => simp
    simp only [List.length_drop, List.length_cons]
    omega
  · simp only [List.length_cons]
    omega

/-- Python s[:-len(m)] (used to strip a known suffix). -/
def dropSuffixS (s m : Str) : Str := s.take (s.length - m.length)

/-- Character list of a string literal. -/
def lit (s : String) : Str := s.data

/-- Errors get_lora_from_url can raise: its three ValueError messages
("URL is empty", "Invalid URL", "Only safetensors files are supported…")
and the download-failure Exception of download_file. -/
inductive RErr where
  | emptyURL
  | invalidURL
  | onlySafetensors
  | downloadFailed
deriving DecidableEq

/-- Success (a resolved local path plus the filesystem afterwards) or error. -/
inductive Outcome where
  | ok (path : Str) (fs : List Str)
  | err (e : RErr)
deriving DecidableEq

/-- Outcome of one resolver call, together with the network requests and
artifact-file writes it performed, in order. -/
structure RunResult where
  outcome : Outcome
  requests : List Str
  writes : List Str
deriving DecidableEq

/-- External collaborators of the resolver: the hex digest of hashlib.md5 of
the encoded url, the CIVITAI_API_KEY environment variable, the network
(whether a GET on a URL returns status 200), the cache root directory
returned by find_or_create_cache, and the local path the hub download
client (hf_hub_download) returns for repo id / filename / subfolder. -/
structure Env where
  md5hex : Str → Str
  civitaiKey : Option Str
  netOK : Str → Bool
  cacheRoot : Str
  hubPath : Str → Str → Option Str → Str

/-- nodes.py get_filename_from_url: md5-hash the url to get a unique
filename, f"{filename}.{extension}". -/
def get_filename_from_url (env : Env) (url : Str) (extension : Str) : Str :=
  env.md5hex url ++ ('.' :: extension)

def hfHost : Str := lit "huggingface.co"

def civHost : Str := lit "civitai.com"

def dlMarker : Str := lit "?download=true"

def blobSeg : Str := lit "/blob/"

def resolveSeg : Str := lit "/resolve/"

def sfxSafetensors : Str := lit "safetensors"

/-- The two URL normalisation steps of the hub branch: strip a trailing
"?download=true", and rewrite "/blob/" to "/resolve/". -/
def hubNormalize (url : Str) : Str :=
  let url1 := if endsWithS dlMarker url = true then dropSuffixS url dlMarker else url
  replaceSub blobSeg resolveSeg url1

/-- Parse of the normalised hub URL: require the lowercased URL to end in
"safetensors" (else the branch raises ValueError, rendered as none), strip
the scheme, split on '/', and read off repo id (parts[1] + "/" + parts[2]),
filename (parts[-1]) and subfolder ("/".join(parts[5:-1]) when
len(parts) - 6 > 0). Out-of-range indexing defaults to "" (a well-formed
hub URL always has at least six parts). -/
def hfDerive (url : Str) : Option (Str × Str × Option Str) :=
  if endsWithS sfxSafetensors (toLowerS url) = true then
    let ps := replaceSub (lit "https://") [] (replaceSub (lit "http://") [] url)
    let parts := splitOnChar '/' ps
    some (parts.getD 1 [] ++ ('/' :: parts.getD 2 []),
          parts.getLastD [],
          if parts.length - 6 > 0 then
            some (joinSep ['/'] (List.dropLast (List.drop 5 parts)))
          else none)
  else none

/-- Marker recorded in the request trace for the hub download client. -/
def hubReqTag (repoId filename : Str) : Str :=
  lit "hf://" ++ repoId ++ ('/' :: filename)

/-- The huggingface.co branch of get_lora_from_url: normalise, parse, then
delegate the fetch to hf_hub_download with stripped repo id and filename. -/
def hubBranch (env : Env) (fs : List Str) (url : Str) : RunResult :=
  match hfDerive (hubNormalize url) with
  | none => ⟨.err .onlySafetensors, [], []⟩
  | some (repoId, filename, subfolder) =>
    ⟨.ok (env.hubPath (trimS repoId) (trimS filename) subfolder) fs,
     [hubReqTag (trimS repoId) (trimS filename)], []⟩

def mvidStr : Str := lit "modelVersionId"

def mvidEq : Str := lit "modelVersionId="

def safeTensorMarker : Str := lit "SafeTensor"

/-- Canonical civitai download URL for a model version id. -/
def canonURL (mv : Str) : Str :=
  lit "https://civitai.com/api/download/models/" ++ mv ++ lit "?type=Model&format=SafeTensor"

/-- The "fix bad url" step of the civitai branch:
url.split("modelVersionId=")[1].split("&")[0] becomes the version id of the
canonical download URL. -/
def civitaiRewrite (url : Str) : Str :=
  let mv0 := (splitOnSub mvidEq url).getD 1 []
  let mv := (splitOnChar '&' mv0).headD []
  canonURL mv

/-- The civitai.com branch of get_lora_from_url: rewrite a modelVersionId
URL, require the literal "SafeTensor", hash the URL into the cache
filename, only then append the API-key token, and download unless the cache
path already exists. os.path.join is rendered as "/"-joining. -/
def civitaiBranch (env : Env) (fs : List Str) (url0 : Str) : RunResult :=
  let url1 := if containsSub mvidStr url0 = true then civitaiRewrite url0 else url0
  if containsSub safeTensorMarker url1 = true then
    let save_filename := get_filename_from_url env url1 (lit "safetensors")
    let url2 :=
      match env.civitaiKey with
      | some key => if trimS key ≠ [] then url1 ++ lit "&token=" ++ key else url1
      | none => url1
    let lora_path := env.cacheRoot ++ ('/' :: lit "civitai") ++ ('/' :: save_filename)
    if lora_path ∈ fs then ⟨.ok lora_path fs, [], []⟩
    else if env.netOK url2 = true then ⟨.ok lora_path (lora_path :: fs), [url2], [lora_path]⟩
    else ⟨.err .downloadFailed, [url2], []⟩
  else ⟨.err .onlySafetensors, [], []⟩

/-- The generic branch of get_lora_from_url: require the lowercased URL path
before any '?' to end in "safetensors", hash the URL into the cache
filename under "general", and download unless the cache path exists. -/
def genericBranch (env : Env) (fs : List Str) (url : Str) : RunResult :=
  if endsWithS sfxSafetensors ((splitOnChar '?' (toLowerS url)).getD 0 []) = true then
    let save_filename := get_filename_from_url env url (lit "safetensors")
    let lora_path := env.cacheRoot ++ ('/' :: lit "general") ++ ('/' :: save_filename)
    if lora_path ∈ fs then ⟨.ok lora_path fs, [], []⟩
    else if env.netOK url = true then ⟨.ok lora_path (lora_path :: fs), [url], [lora_path]⟩
    else ⟨.err .downloadFailed, [url], []⟩
  else ⟨.err .onlySafetensors, [], []⟩

/-- nodes.py get_lora_from_url: strip, reject empty or non-http input, then
dispatch on the host substring: huggingface.co, civitai.com, generic. -/
def get_lora_from_url (env : Env) (fs : List Str) (url0 : Str) : RunResult :=
  let url := trimS url0
  if url = [] then ⟨.err .emptyURL, [], []⟩
  else if pfx (lit "http") url = false then ⟨.err .invalidURL, [], []⟩
  else if containsSub hfHost url = true then hubBranch env fs url
  else if containsSub civHost url = true then civitaiBranch env fs url
  else genericBranch env fs url

/-- A well-formed hub resolve URL assembled from its components (scheme
omitted): huggingface.co/owner/repo/resolve/rev/(segs/…/)file. -/
def hfCore (owner repo rev : Str) (segs : List Str) (file : Str) : Str :=
  joinSep ['/'] ([hfHost, owner, repo, lit "resolve", rev] ++ segs ++ [file])

/-- The full well-formed hub resolve URL. -/
def hfURL (owner repo rev : Str) (segs : List Str) (file : Str) : Str :=
  lit "https://" ++ hfCore owner repo rev segs file

/-- Images as ComfyUI passes them: batch × height × width × channels, with an
unconstrained pixel function. -/
structure Image (α : Type) where
  batch : ℕ
  height : ℕ
  width : ℕ
  channels : ℕ
  pix : ℕ → ℕ → ℕ → ℕ → α

/-- Index clamping used by torch replicate padding. -/
def clampIdx (i : ℤ) (n : ℕ) : ℕ := (max 0 (min i ((n : ℤ) - 1))).toNat

/-- Index mirroring used by torch reflect padding (the edge itself is not
repeated). -/
def reflectIdx (i : ℤ) (n : ℕ) : ℕ :=
  if i < 0 then (-i).toNat
  else if (n : ℤ) ≤ i then (2 * ((n : ℤ) - 1) - i).toNat
  else i.toNat

/-- Runtime errors of torch's non-constant padding on degenerate inputs. -/
inductive PadErr where
  | replicateEmpty
  | reflectTooLarge
deriving DecidableEq

/-- torch.nn.functional.pad with mode "constant", value 0, on a
(batch, height, width, channels) tensor with pad
(0, 0, pad_left, pad_right, pad_top, pad_bottom): channels untouched,
width padded by (pl, pr), height by (pt, pb), zero outside the source. -/
def F_padConstant (α : Type) (zero : α) (pl pr pt pb : ℕ) (img : Image α) :
    Except PadErr (Image α) :=
  .ok { batch := img.batch, height := img.height + pt + pb,
        width := img.width + pl + pr, channels := img.channels,
        pix := fun b y x c =>
          if pt ≤ y ∧ y < pt + img.height ∧ pl ≤ x ∧ x < pl + img.width then
            img.pix b (y - pt) (x - pl) c
          else zero }

/-- torch.nn.functional.pad with mode "replicate" (same pad layout): edge
pixels are extended by index clamping; torch requires a non-empty source. -/
def F_padReplicate (α : Type) (pl pr pt pb : ℕ) (img : Image α) :
    Except PadErr (Image α) :=
  if 1 ≤ img.height ∧ 1 ≤ img.width then
    .ok { batch := img.batch, height := img.height + pt + pb,
          width := img.width + pl + pr, channels := img.channels,
          pix := fun b y x c =>
            img.pix b (clampIdx ((y : ℤ) - (pt : ℤ)) img.height)
              (clampIdx ((x : ℤ) - (pl : ℤ)) img.width) c }
  else .error .replicateEmpty

/-- torch.nn.functional.pad with mode "reflect" (same pad layout): mirrored
indices; torch raises unless every pad amount is smaller than the
corresponding source dimension. -/
def F_padReflect (α : Type) (pl pr pt pb : ℕ) (img : Image α) :
    Except PadErr (Image α) :=
  if pt < img.height ∧ pb < img.height ∧ pl < img.width ∧ pr < img.width then
    .ok { batch := img.batch, height := img.height + pt + pb,
          width := img.width + pl + pr, channels := img.channels,
          pix := fun b y x c =>
            img.pix b (reflectIdx ((y : ℤ) - (pt : ℤ)) img.height)
              (reflectIdx ((x : ℤ) - (pl : ℤ)) img.width) c }
  else .error .reflectTooLarge

/-- ImagePaddingAdvanced.run: pad up to the target width/height only (never
shrink), remainder of an odd pad on the trailing side, early return of the
input when no padding is needed, then dispatch on the method string
("constant" / "replicate" / anything else → reflect). -/
def imagePaddingAdvancedRun (α : Type) (zero : α) (img : Image α)
    (width height : ℕ) (method : Str) : Except PadErr (Image α) :=
  let pad_width := if width > img.width then width - img.width else 0
  let pad_height := if height > img.height then height - img.height else 0
  if pad_height = 0 ∧ pad_width = 0 then .ok img
  else
    let pad_top := pad_height / 2
    let pad_bottom := pad_height - pad_top
    let pad_left := pad_width / 2
    let pad_right := pad_width - pad_left
    if method = lit "constant" then
      F_padConstant α zero pad_left pad_right pad_top pad_bottom img
    else if method = lit "replicate" then
      F_padReplicate α pad_left pad_right pad_top pad_bottom img
    else
      F_padReflect α pad_left pad_right pad_top pad_bottom img

/-- RGB images for the film grain node (whose colour pipeline stacks exactly
three channels). -/
structure RGBImage where
  batch : ℕ
  height : ℕ
  width : ℕ
  pix : ℕ → ℕ → ℕ → ℚ × ℚ × ℚ

/-- External inputs of the film grain node: the torch.randn monochrome and
colour noise draws (on the reduced noise grid) and torch's bilinear
interpolation to the image size (used only when grain_size ≠ 1). -/
structure GrainEnv where
  monoNoise : ℕ → ℕ → ℕ → ℚ
  colorNoise : ℕ → ℕ → ℕ → ℚ × ℚ × ℚ
  resize : (ℕ → ℕ → ℕ → ℚ × ℚ × ℚ) → ℕ → ℕ → (ℕ → ℕ → ℕ → ℚ × ℚ × ℚ)

/-- torch.clamp(·, 0, 1). -/
def clamp01 (x : ℚ) : ℚ := min (max x 0) 1

/-- Python/torch floored modulo (the result takes the sign of the divisor). -/
def qmod (a b : ℚ) : ℚ := a - b * ((⌊a / b⌋ : ℤ) : ℚ)

/-- The HSV saturation-adjust pass of FilmGrainNode (mode "Color"), per
pixel. The sequential masked hue assignments of the source give the b == v
branch priority over g == v over r == v; the six reconstruction masks are
disjoint half-open ranges; both appear here as if-chains. Divisions by a
zero diff (grey pixels) yield 0 here where torch yields NaN; on grey pixels
both give the identity, since c = 0 there either way. -/
def hsvAdjust (sat r g b : ℚ) : ℚ × ℚ × ℚ :=
  let v := max r (max g b)
  let mn := min r (min g b)
  let d := v - mn
  let s := if v ≠ 0 then d / v else 0
  let h :=
    if b = v then (240 + 60 * (r - g) / d) / 360
    else if g = v then (120 + 60 * (b - r) / d) / 360
    else qmod (60 * (g - b) / d) 360 / 360
  let s2 := clamp01 (s * sat)
  let c := v * s2
  let x := c * (1 - |qmod (h * 6) 2 - 1|)
  let m := v - c
  let rgb :=
    if h < 1/6 then (c, x, 0)
    else if h < 2/6 then (x, c, 0)
    else if h < 3/6 then (0, c, x)
    else if h < 4/6 then (0, x, c)
    else if h < 5/6 then (x, 0, c)
    else if 5/6 ≤ h then (c, 0, x)
    else (0, 0, 0)
  (rgb.1 + m, rgb.2.1 + m, rgb.2.2 + m)

/-- FilmGrainNode.apply_film_grain as a pure function of the noise
environment: blend monochrome and colour noise by grain_saturation, resize
when grain_size ≠ 1, add (noise − 0.5) · intensity · brightness factor to
the image, then apply the mode pass ("Color" → HSV adjust, "Black and
White" → luminance collapse) and clamp to [0, 1]. -/
def apply_film_grain (envN : GrainEnv) (img : RGBImage)
    (intensity grain_size grain_saturation brightness_impact image_saturation : ℚ)
    (mode : Str) : RGBImage :=
  let blend : ℕ → ℕ → ℕ → ℚ × ℚ × ℚ := fun b y x =>
    let mnoise := envN.monoNoise b y x
    let cn := envN.colorNoise b y x
    (mnoise * (1 - grain_saturation) + cn.1 * grain_saturation,
     mnoise * (1 - grain_saturation) + cn.2.1 * grain_saturation,
     mnoise * (1 - grain_saturation) + cn.2.2 * grain_saturation)
  let noise := if grain_size ≠ 1 then envN.resize blend img.height img.width else blend
  { img with pix := fun b y x =>
      let p := img.pix b y x
      let n := noise b y x
      let brightness := 0.299 * p.1 + 0.587 * p.2.1 + 0.114 * p.2.2
      let bf := (1 - brightness_impact) + brightness_impact * brightness
      let r1 := p.1 + (n.1 - 0.5) * intensity * bf
      let g1 := p.2.1 + (n.2.1 - 0.5) * intensity * bf
      let b1 := p.2.2 + (n.2.2 - 0.5) * intensity * bf
      let q :=
        if mode = lit "Color" then hsvAdjust image_saturation r1 g1 b1
        else if mode = lit "Black and White" then
          let l := 0.299 * r1 + 0.587 * g1 + 0.114 * b1
          (l, l, l)
        else (r1, g1, b1)
      (clamp01 q.1, clamp01 q.2.1, clamp01 q.2.2) }

/-- FluxReduxFloatRamp.ease_in. -/
def rampEaseIn (x : ℚ) : ℚ := x * x

/-- FluxReduxFloatRamp.ease_out. -/
def rampEaseOut (x : ℚ) : ℚ := 1 - (1 - x) * (1 - x)

/-- FluxReduxFloatRamp.ease_in_out. -/
def rampEaseInOut (x : ℚ) : ℚ := x * x * (3 - 2 * x)

/-- FluxReduxFloatRamp.exponential; math.exp is the abstract parameter E. -/
def rampExponential (E : ℚ → ℚ) (x : ℚ) : ℚ := (E x - 1) / (E 1 - 1)

/-- FluxReduxFloatRamp.smoothstep. -/
def rampSmoothstep (x : ℚ) : ℚ := x * x * (3 - 2 * x)

/-- FluxReduxFloatRamp.bounce (n1 = 7.5625, d1 = 2.75). -/
def rampBounce (x : ℚ) : ℚ :=
  let n1 : ℚ := 7.5625
  let d1 : ℚ := 2.75
  if x < 1 / d1 then n1 * x * x
  else if x < 2 / d1 then n1 * (x - 1.5 / d1) * (x - 1.5 / d1) + 0.75
  else if x < 2.5 / d1 then n1 * (x - 2.25 / d1) * (x - 2.25 / d1) + 0.9375
  else n1 * (x - 2.625 / d1) * (x - 2.625 / d1) + 0.984375

/-- The ramp-type dispatch of get_value (unknown names fall back to linear). -/
def rampApply (E : ℚ → ℚ) (ramp_type : Str) (x : ℚ) : ℚ :=
  if ramp_type = lit "linear" then x
  else if ramp_type = lit "ease_in" then rampEaseIn x
  else if ramp_type = lit "ease_out" then rampEaseOut x
  else if ramp_type = lit "ease_in_out" then rampEaseInOut x
  else if ramp_type = lit "exponential" then rampExponential E x
  else if ramp_type = lit "smoothstep" then rampSmoothstep x
  else if ramp_type = lit "bounce" then rampBounce x
  else x

/-- FluxReduxFloatRamp.get_value with the step attribute i made explicit
(the source reads getattr(self, 'i', 0); current_step = i + 1): past the
threshold return end, otherwise start + (end − start) · ramp(progress). -/
def get_value (E : ℚ → ℚ) (start endv : ℚ) (steps_threshold : ℕ) (ramp_type : Str)
    (i : ℕ) : ℚ :=
  let current_step := i + 1
  if current_step > steps_threshold then endv
  else start + (endv - start) *
    rampApply E ramp_type ((current_step : ℚ) / (steps_threshold : ℚ))

/-- The instance attributes get_value reads. Nothing in the repository ever
assigns self.i or self.total_steps, so on a fresh instance both are absent
and getattr falls back to its defaults. -/
structure FluxReduxState where
  i : Option ℕ
  total_steps : Option ℕ

/-- One node invocation: read the attributes (defaults 0 and
steps_threshold), compute the value; get_value contains no attribute
assignment, so the state is returned unchanged. -/
def get_value_node (E : ℚ → ℚ) (st : FluxReduxState) (start endv : ℚ)
    (steps_threshold : ℕ) (ramp_type : Str) : ℚ × FluxReduxState :=
  (get_value E start endv steps_threshold ramp_type (st.i.getD 0), st)

/-- Runs k+1 successive invocations on the same instance, returning the last
value and the final state. -/
def iterateRamp (E : ℚ → ℚ) (start endv : ℚ) (steps_threshold : ℕ) (ramp_type : Str) :
    ℕ → FluxReduxState → ℚ × FluxReduxState
  | 0, st => get_value_node E st start endv steps_threshold ramp_type
  | k + 1, st => iterateRamp E start endv steps_threshold ramp_type k
      (get_value_node E st start endv steps_threshold ramp_type).2

/-- Per-instance payload cache of the LoRA loader nodes. LoraLoaderFromURL
and HFHubLoraLoader carry this logic verbatim (nodes.py 318-357 and
608-638): both fields start as None. -/
structure LoaderState (α : Type) where
  loaded_lora : Option α
  loaded_lora_path : Option Str

/-- Observable outcome of one load_lora invocation on the cache: the state
afterwards, the payload handed to load_lora_for_models (none when the
zero-strength short circuit fired), and whether load_torch_file ran. -/
structure LoadStep (α : Type) where
  state : LoaderState α
  used : Option α
  readDisk : Bool

/-- The cache-management core of load_lora, shared verbatim by
LoraLoaderFromURL and HFHubLoraLoader, after resolution produced lora_path:
zero strengths short-circuit before resolution; a stored payload for the
same path is reused; a stored payload for a different path is dropped
(fields cleared) and the file is loaded from disk and cached. The disk
parameter models comfy.utils.load_torch_file. -/
def load_lora_cache (α : Type) (disk : Str → α) (strength_model strength_clip : ℚ)
    (st : LoaderState α) (lora_path : Str) : LoadStep α :=
  if strength_model = 0 ∧ strength_clip = 0 then ⟨st, none, false⟩
  else
    let cached : Option α :=
      match st.loaded_lora with
      | some l => if st.loaded_lora_path = some lora_path then some l else none
      | none => none
    match cached with
    | some l => ⟨st, some l, false⟩
    | none => ⟨⟨some (disk lora_path), some lora_path⟩, some (disk lora_path), true⟩

/-- Environment used by concrete instantiations: identity hash, no API key,
network always succeeding. -/
def envW : Env :=
  ⟨fun s => s, none, fun _ => true, lit "cache", fun r f _ => lit "hubfile:" ++ r ++ ('/' :: f)⟩

/-- envW with a chosen CIVITAI_API_KEY value. -/
def envWK (k : Option Str) : Env := { envW with civitaiKey := k }

/-- Concrete 2 × 2 test image. -/
def imgW : Image ℚ := ⟨1, 2, 2, 1, fun b y x c => (b : ℚ) + 2 * y + 3 * x + 5 * c⟩

/-- Concrete 1 × 1 test image. -/
def img1W : Image ℚ := ⟨1, 1, 1, 1, fun _ _ _ _ => 7⟩

/-- Concrete noise environment: zero noise, identity resize. -/
def grainEnvW : GrainEnv := ⟨fun _ _ _ => 0, fun _ _ _ => (0, 0, 0), fun f _ _ => f⟩

/-- Concrete pure-red 1 × 1 image. -/
def redImgW : RGBImage := ⟨1, 1, 1, fun _ _ _ => (1, 0, 0)⟩

/-- Concrete mixed-colour 1 × 1 image. -/
def mixImgW : RGBImage := ⟨1, 1, 1, fun _ _ _ => (1/2, 1/4, 3/4)⟩

/-- Concrete strictly monotone stand-in for math.exp with E 0 = 1. -/
def expW : ℚ → ℚ := fun x => x + 1

theorem pfx_append_of_pfx (p a b : Str) (h : pfx p a = true) : pfx p (a ++ b) = true := by
  induction p generalizing a with
  | nil => rfl
  | cons c cs ih =>
    cases a with
    | nil => simp [pfx] at h
    | cons d ds =>
      simp only [pfx, Bool.and_eq_true] at h
      simp only [List.cons_append, pfx, Bool.and_eq_true]
      exact ⟨h.1, ih ds h.2⟩

theorem pfx_append_self (p t : Str) : pfx p (p ++ t) = true := by
  induction p with
  | nil => rfl
  | cons c cs ih => simp [pfx, ih]

theorem pfx_take (p s : Str) (h : pfx p s = true) : s.take p.length = p := by
  induction p generalizing s with
  | nil => rfl
  | cons c cs ih =>
    cases s with
    | nil => simp [pfx] at h
    | cons d ds =>
      simp only [pfx, Bool.and_eq_true, beq_iff_eq] at h
      simp [List.take, ih ds h.2, h.1]

theorem pfx_of_take (p s : Str) (h : s.take p.length = p) : pfx p s = true := by
  induction p generalizing s with
  | nil => rfl
  | cons c cs ih =>
    cases s with
    | nil => simp at h
    | cons d ds =>
      simp only [List.length_cons, List.take, List.cons.injEq] at h
      simp only [pfx, Bool.and_eq_true, beq_iff_eq]
      exact ⟨h.1.symm, ih ds h.2⟩

theorem containsSub_of_pfx (p s : Str) (h : pfx p s = true) : containsSub p s = true := by
  cases s with
  | nil =>
    cases p with
    | nil => rfl
    | cons c cs => simp [pfx] at h
  | cons c rest => simp [containsSub, h]

theorem containsSub_append_right (p s t : Str) (h : containsSub p t = true) :
    containsSub p (s ++ t) = true := by
  induction s with
  | nil => exact h
  | cons c cs ih => simp [containsSub, ih]

theorem containsSub_append_left (p s t : Str) (h : containsSub p s = true) :
    containsSub p (s ++ t) = true := by
  induction s with
  | nil =>
    have hp : p = [] := by simpa [containsSub] using h
    subst hp
    cases t with
    | nil => rfl
    | cons c cs => simp [containsSub, pfx]
  | cons c cs ih =>
    simp only [containsSub, Bool.or_eq_true] at h
    rcases h with h | h
    · have h2 : pfx p (c :: (cs ++ t)) = true := by
        have := pfx_append_of_pfx p (c :: cs) t h
        simpa using this
      simp [containsSub, h2]
    · simp [containsSub, ih h]

theorem containsSub_cons_false (p : Str) (c : Char) (s : Str)
    (h : containsSub p (c :: s) = false) : containsSub p s = false := by
  simp only [containsSub, Bool.or_eq_false_iff] at h
  exact h.2

theorem replaceSub_of_not_contains (pat rep s : Str) (h : containsSub pat s = false) :
    replaceSub pat rep s = s := by
  induction s with
  | nil => rw [replaceSub]
  | cons c rest ih =>
    rw [replaceSub]
    have hcond : ¬ (pat ≠ [] ∧ pfx pat (c :: rest) = true) := by
      rintro ⟨-, h2⟩
      rw [containsSub_of_pfx _ _ h2] at h
      exact Bool.true_eq_false.mp h  
    rw [dif_neg hcond, ih (containsSub_cons_false _ _ _ h)]

theorem replaceSub_head (pat t : Str) (hp : pat ≠ []) :
    replaceSub pat [] (pat ++ t) = replaceSub pat [] t := by
  cases pat with
  | nil => exact absurd rfl hp
  | cons c cs =>
    rw [List.cons_append, replaceSub, dif_pos ⟨hp, pfx_append_self (c :: cs) t⟩]
    have hd : List.drop (c :: cs).length (c :: (cs ++ t)) = t := List.drop_left (c :: cs) t
    rw [hd]
    rfl

theorem endsWithS_append (p s t : Str) (h : endsWithS p t = true) :
    endsWithS p (s ++ t) = true := by
  unfold endsWithS at h ⊢
  rw [List.reverse_append]
  exact pfx_append_of_pfx _ _ _ h

theorem splitOnChar_no_sep (c : Char) (x : Str) (h : c ∉ x) : splitOnChar c x = [x] := by
  induction x with
  | nil => rfl
  | cons d ds ih =>
    have hdc : ¬ ((d == c) = true) := by
      simp only [beq_iff_eq]
      intro he
      exact h (he ▸ List.mem_cons_self d ds)
    rw [splitOnChar, if_neg hdc, ih (fun hm => h (List.mem_cons_of_mem _ hm))]

theorem splitOnChar_sep_append (c : Char) (x t : Str) (h : c ∉ x) :
    splitOnChar c (x ++ c :: t) = x :: splitOnChar c t := by
  induction x with
  | nil =>
    simp only [List.nil_append]
    rw [splitOnChar, if_pos (by simp)]
  | cons d ds ih =>
    have hdc : ¬ ((d == c) = true) := by
      simp only [beq_iff_eq]
      intro he
      exact h (he ▸ List.mem_cons_self d ds)
    rw [List.cons_append, splitOnChar, if_neg hdc, ih (fun hm => h (List.mem_cons_of_mem _ hm))]

theorem splitOnChar_joinSep (c : Char) (xss : List Str) (hne : xss ≠ [])
    (h : ∀ x ∈ xss, c ∉ x) : splitOnChar c (joinSep [c] xss) = xss := by
  induction xss with
  | nil => exact absurd rfl hne
  | cons x xs ih =>
    cases xs with
    | nil => exact splitOnChar_no_sep c x (h x (by simp))
    | cons y ys =>
      rw [joinSep]
      have hshape : x ++ [c] ++ joinSep [c] (y :: ys) = x ++ c :: joinSep [c] (y :: ys) := by
        simp
      rw [hshape, splitOnChar_sep_append c x _ (h x (by simp)),
        ih (List.cons_ne_nil y ys) (fun z hz => h z (by simp [hz]))]
      exact fun hc => List.noConfusion hc

theorem joinSep_two (sep x : Str) (y : Str) (ys : List Str) :
    joinSep sep (x :: y :: ys) = x ++ sep ++ joinSep sep (y :: ys) := by
  rw [joinSep]
  exact fun hc => List.noConfusion hc

theorem joinSep_append_last (sep : Str) (xs : List Str) (x : Str) (h : xs ≠ []) :
    joinSep sep (xs ++ [x]) = joinSep sep xs ++ sep ++ x := by
  induction xs with
  | nil => exact absurd rfl h
  | cons y ys ih =>
    cases ys with
    | nil => simp [joinSep]
    | cons z zs =>
      have h1 : (y :: z :: zs) ++ [x] = y :: ((z :: zs) ++ [x]) := by simp
      rw [h1]
      have h2 : (z :: zs) ++ [x] = z :: (zs ++ [x]) := by simp
      rw [h2, joinSep_two, ← h2, ih (by simp), joinSep_two]
      simp [List.append_assoc]

theorem splitOnSub_of_not_contains (sep s : Str) (h : containsSub sep s = false) :
    splitOnSub sep s = [s] := by
  induction s with
  | nil => rw [splitOnSub]
  | cons c rest ih =>
    rw [splitOnSub]
    have hcond : ¬ (sep ≠ [] ∧ pfx sep (c :: rest) = true) := by
      rintro ⟨-, h2⟩
      rw [containsSub_of_pfx _ _ h2] at h
      exact Bool.true_eq_false.mp h
    rw [dif_neg hcond, ih (containsSub_cons_false _ _ _ h)]

theorem splitOnSub_exact (sep pre rest : Str)
    (hpre : containsSub sep (pre ++ List.dropLast sep) = false)
    (hrest : containsSub sep rest = false) :
    splitOnSub sep (pre ++ (sep ++ rest)) = [pre, rest] := by
  have hsep : sep ≠ [] := by
    intro he
    subst he
    cases hpe : (pre ++ List.dropLast ([] : Str)) with
    | nil => rw [hpe] at hpre; simp [containsSub] at hpre
    | cons a as => rw [hpe] at hpre; simp [containsSub, pfx] at hpre
  have hseplen : 1 ≤ sep.length := by
    cases sep with
    | nil => exact absurd rfl hsep
    | cons a as => simp
  induction pre with
  | nil =>
    simp only [List.nil_append] at hpre ⊢
    cases sep with
    | nil => exact absurd rfl hsep
    | cons c cs =>
      rw [List.cons_append, splitOnSub,
        dif_pos ⟨hsep, by exact pfx_append_self (c :: cs) rest⟩]
      have hd : List.drop (c :: cs).length (c :: (cs ++ rest)) = rest :=
        List.drop_left (c :: cs) rest
      rw [hd, splitOnSub_of_not_contains (c :: cs) rest hrest]
  | cons c pre' ih =>
    have hcond : ¬ (sep ≠ [] ∧ pfx sep (c :: (pre' ++ (sep ++ rest))) = true) := by
      rintro ⟨-, h2⟩
      have htake : ((c :: pre') ++ (sep ++ rest)).take sep.length = sep := pfx_take _ _ h2
      have htake2 : ((c :: pre') ++ List.dropLast sep).take sep.length = sep := by
        rw [List.take_append_eq_append_take] at htake ⊢
        rw [List.take_append_eq_append_take] at htake
        have hdl : (List.dropLast sep).take (sep.length - (c :: pre').length) =
            sep.take (sep.length - (c :: pre').length) := by
          rw [List.dropLast_eq_take, List.take_take]
          congr 1
          have : (c :: pre').length = pre'.length + 1 := by simp
          omega
        rw [hdl]
        by_cases hc : sep.length ≤ (c :: pre').length
        · have h0 : sep.length - (c :: pre').length = 0 := by omega
          rw [h0] at htake ⊢
          simpa using htake
        · have : rest.take (sep.length - (c :: pre').length - sep.length) = [] := by
            have h0 : sep.length - (c :: pre').length - sep.length = 0 := by omega
            rw [h0]; rfl
          rw [this, List.append_nil] at htake
          exact htake
      have hpf2 : pfx sep ((c :: pre') ++ List.dropLast sep) = true := pfx_of_take _ _ htake2
      have := containsSub_of_pfx _ _ hpf2
      rw [this] at hpre
      exact Bool.true_eq_false.mp hpre
    rw [List.cons_append, splitOnSub, dif_neg hcond]
    have hpre' : containsSub sep (pre' ++ List.dropLast sep) = false :=
      containsSub_cons_false _ _ _ hpre
    rw [ih hpre']

theorem toLowerS_append (a b : Str) : toLowerS (a ++ b) = toLowerS a ++ toLowerS b :=
  List.map_append _ a b


/-- C1: for every well-formed hub URL
https://huggingface.co/owner/repo/resolve/rev/(s1/…/sN/)file.safetensors
with N intermediate segments, the hub branch derives repo id owner/repo,
filename the final segment, and subfolder s1/…/sN joined by "/", absent
exactly when N = 0; get_lora_from_url then delegates to the hub client with
exactly these (stripped) values. -/
theorem hf_url_parse (env : Env) (fs : List Str) (owner repo rev : Str)
    (segs : List Str) (file : Str)
    (hsl : ∀ s ∈ owner :: repo :: rev :: file :: segs, ('/' : Char) ∉ s)
    (hfile : ∃ base, file = base ++ lit ".safetensors")
    (hblob : containsSub blobSeg (hfURL owner repo rev segs file) = false)
    (hhttp : containsSub (lit "http://") (hfURL owner repo rev segs file) = false)
    (hhttps : containsSub (lit "https://") (hfCore owner repo rev segs file) = false)
    (htrim : trimS (hfURL owner repo rev segs file) = hfURL owner repo rev segs file)
    (hdl : endsWithS dlMarker (hfURL owner repo rev segs file) = false) :
    hfDerive (hubNormalize (hfURL owner repo rev segs file)) =
      some (owner ++ '/' :: repo, file,
            if segs = [] then none else some (joinSep ['/'] segs)) ∧
    get_lora_from_url env fs (hfURL owner repo rev segs file) =
      ⟨.ok (env.hubPath (trimS (owner ++ '/' :: repo)) (trimS file)
              (if segs = [] then none else some (joinSep ['/'] segs))) fs,
       [hubReqTag (trimS (owner ++ '/' :: repo)) (trimS file)], []⟩ := by
  obtain ⟨base, hfeq⟩ := hfile
  have hnorm : hubNormalize (hfURL owner repo rev segs file) =
      hfURL owner repo rev segs file := by
    unfold hubNormalize
    rw [if_neg (by rw [hdl]; exact fun hc => Bool.noConfusion hc)]
    exact replaceSub_of_not_contains _ _ _ hblob
  have hfull : hfCore owner repo rev segs file =
      joinSep ['/'] ([hfHost, owner, repo, lit "resolve", rev] ++ segs ++ [file]) := rfl
  have hslAll : ∀ x ∈ [hfHost, owner, repo, lit "resolve", rev] ++ segs ++ [file],
      ('/' : Char) ∉ x := by
    intro x hx
    rcases List.mem_append.mp hx with hx1 | hx2
    · rcases List.mem_append.mp hx1 with hx3 | hx4
      · simp only [List.mem_cons, List.not_mem_nil, or_false] at hx3
        rcases hx3 with h | h | h | h | h
        · rw [h]; decide
        · rw [h]; exact hsl owner (by simp)
        · rw [h]; exact hsl repo (by simp)
        · rw [h]; decide
        · rw [h]; exact hsl rev (by simp)
      · exact hsl x (by simp [hx4])
    · have hxf : x = file := by simpa using hx2
      rw [hxf]
      exact hsl file (by simp)
  have hsplit : splitOnChar '/' (hfCore owner repo rev segs file) =
      [hfHost, owner, repo, lit "resolve", rev] ++ segs ++ [file] := by
    rw [hfull]
    exact splitOnChar_joinSep '/' _ (by simp) hslAll
  have hcoreLast : hfCore owner repo rev segs file =
      joinSep ['/'] ([hfHost, owner, repo, lit "resolve", rev] ++ segs) ++ ['/'] ++ file := by
    rw [hfull, List.append_assoc, ← List.append_assoc]
    exact joinSep_append_last ['/'] _ file (by simp)
  have hlower : endsWithS sfxSafetensors (toLowerS (hfURL owner repo rev segs file)) = true := by
    have hshape : hfURL owner repo rev segs file =
        (lit "https://" ++ (joinSep ['/'] ([hfHost, owner, repo, lit "resolve", rev] ++ segs)
          ++ ['/'] ++ base)) ++ lit ".safetensors" := by
      unfold hfURL
      rw [hcoreLast, hfeq]
      simp [List.append_assoc]
    rw [hshape, toLowerS_append]
    exact endsWithS_append _ _ _ (by decide)
  have hstrip : replaceSub (lit "https://") []
      (replaceSub (lit "http://") [] (hfURL owner repo rev segs file)) =
      hfCore owner repo rev segs file := by
    rw [replaceSub_of_not_contains _ _ _ hhttp]
    unfold hfURL
    rw [replaceSub_head _ _ (by decide)]
    exact replaceSub_of_not_contains _ _ _ hhttps
  have hd1 : ([hfHost, owner, repo, lit "resolve", rev] ++ segs ++ [file]).getD 1 [] = owner := by
    rfl
  have hd2 : ([hfHost, owner, repo, lit "resolve", rev] ++ segs ++ [file]).getD 2 [] = repo := by
    rfl
  have hdlast : ([hfHost, owner, repo, lit "resolve", rev] ++ segs ++ [file]).getLastD [] = file := by
    rw [List.append_assoc, ← List.append_assoc]
    exact List.getLastD_concat _ _ _
  have hdrop : List.drop 5 ([hfHost, owner, repo, lit "resolve", rev] ++ segs ++ [file]) =
      segs ++ [file] := by
    have h5 : ([hfHost, owner, repo, lit "resolve", rev] : List Str).length = 5 := by simp
    rw [← h5]
    exact List.drop_left _ _
  have hlen : ([hfHost, owner, repo, lit "resolve", rev] ++ segs ++ [file]).length =
      segs.length + 6 := by
    simp
  have hderive : hfDerive (hfURL owner repo rev segs file) =
      some (owner ++ '/' :: repo, file,
            if segs = [] then none else some (joinSep ['/'] segs)) := by
    unfold hfDerive
    rw [if_pos hlower]
    simp only [hstrip, hsplit, hd1, hd2, hdlast, hdrop, hlen, List.dropLast_concat]
    cases segs with
    | nil => simp
    | cons a as => simp
  have hne : hfURL owner repo rev segs file ≠ [] := by
    unfold hfURL
    intro hc
    rw [List.append_eq_nil] at hc
    exact absurd hc.1 (by decide)
  have hhttpPfx : pfx (lit "http") (hfURL owner repo rev segs file) = true := by
    unfold hfURL
    exact pfx_append_of_pfx _ _ _ (by decide)
  have hhfIn : containsSub hfHost (hfURL owner repo rev segs file) = true := by
    unfold hfURL
    apply containsSub_append_right
    have hj : hfCore owner repo rev segs file =
        hfHost ++ (['/'] ++ joinSep ['/'] (owner :: ([repo, lit "resolve", rev] ++ segs ++ [file]))) := by
      rw [hfull]
      rw [← List.append_assoc]
      exact joinSep_two ['/'] hfHost owner ([repo, lit "resolve", rev] ++ segs ++ [file])
    rw [hj]
    exact containsSub_of_pfx _ _ (pfx_append_self _ _)
  have hderivedNorm : hfDerive (hubNormalize (hfURL owner repo rev segs file)) =
      some (owner ++ '/' :: repo, file,
            if segs = [] then none else some (joinSep ['/'] segs)) := by
    rw [hnorm, hderive]
  refine ⟨hderivedNorm, ?_⟩
  unfold get_lora_from_url
  simp only [htrim]
  rw [if_neg hne, if_neg (by rw [hhttpPfx]; exact fun hc => Bool.noConfusion hc),
    if_pos hhfIn]
  unfold hubBranch
  rw [hderivedNorm]

/-- C1 witness: the parse at a concrete hub URL with two subfolder segments. -/
theorem hf_url_parse_witness :
    hfDerive (hubNormalize (hfURL (lit "oo") (lit "rr") (lit "main")
        [lit "s1", lit "s2"] (lit "f.safetensors"))) =
      some (lit "oo" ++ '/' :: lit "rr", lit "f.safetensors",
            if ([lit "s1", lit "s2"] : List Str) = [] then none
            else some (joinSep ['/'] [lit "s1", lit "s2"])) ∧
    get_lora_from_url envW [] (hfURL (lit "oo") (lit "rr") (lit "main")
        [lit "s1", lit "s2"] (lit "f.safetensors")) =
      ⟨.ok (envW.hubPath (trimS (lit "oo" ++ '/' :: lit "rr")) (trimS (lit "f.safetensors"))
              (if ([lit "s1", lit "s2"] : List Str) = [] then none
               else some (joinSep ['/'] [lit "s1", lit "s2"]))) [],
       [hubReqTag (trimS (lit "oo" ++ '/' :: lit "rr")) (trimS (lit "f.safetensors"))], []⟩ :=
  hf_url_parse envW [] (lit "oo") (lit "rr") (lit "main") [lit "s1", lit "s2"]
    (lit "f.safetensors") (by decide) ⟨lit "f", by decide⟩ (by decide) (by decide)
    (by decide) (by decide) (by decide)

theorem get_lora_hub_dispatch (env : Env) (fs : List Str) (url : Str)
    (h1 : trimS url ≠ []) (h2 : pfx (lit "http") (trimS url) = true)
    (h3 : containsSub hfHost (trimS url) = true) :
    get_lora_from_url env fs url = hubBranch env fs (trimS url) := by
  unfold get_lora_from_url
  rw [if_neg h1, if_neg (by simp [h2]), if_pos h3]

theorem get_lora_civ_dispatch (env : Env) (fs : List Str) (url : Str)
    (h1 : trimS url ≠ []) (h2 : pfx (lit "http") (trimS url) = true)
    (h3 : containsSub hfHost (trimS url) = false)
    (h4 : containsSub civHost (trimS url) = true) :
    get_lora_from_url env fs url = civitaiBranch env fs (trimS url) := by
  unfold get_lora_from_url
  rw [if_neg h1, if_neg (by simp [h2]), if_neg (by simp [h3]), if_pos h4]

theorem get_lora_gen_dispatch (env : Env) (fs : List Str) (url : Str)
    (h1 : trimS url ≠ []) (h2 : pfx (lit "http") (trimS url) = true)
    (h3 : containsSub hfHost (trimS url) = false)
    (h4 : containsSub civHost (trimS url) = false) :
    get_lora_from_url env fs url = genericBranch env fs (trimS url) := by
  unfold get_lora_from_url
  rw [if_neg h1, if_neg (by simp [h2]), if_neg (by simp [h3]), if_neg (by simp [h4])]

/-- C2 counterexample: the canonical civitai download URL's path (before the
query string) does not end in the safetensors suffix, yet get_lora_from_url
does not raise the invalid-reference ValueError: it performs a network
request (and here succeeds). -/
theorem safetensors_rejection_cex :
    endsWithS sfxSafetensors
      ((splitOnChar '?' (toLowerS (canonURL (lit "4077")))).getD 0 []) = false ∧
    (get_lora_from_url envW [] (canonURL (lit "4077"))).requests ≠ [] ∧
    (get_lora_from_url envW [] (canonURL (lit "4077"))).outcome ≠
      Outcome.err RErr.onlySafetensors := by
  refine ⟨by decide, by decide, by decide⟩

/-- C2 amended: in every branch the failing format check raises the
only-safetensors ValueError before any network request or filesystem
write — but the checks differ per branch: the hub branch tests whether the
full lowercased normalised URL (query string included) ends in
"safetensors", the marketplace branch tests whether the (possibly
rewritten) URL contains the literal "SafeTensor", and only the generic
branch tests whether the lowercased path before any '?' ends in
"safetensors". -/
theorem invalid_format_rejected (env : Env) (fs : List Str) (url : Str) :
    (trimS url ≠ [] → pfx (lit "http") (trimS url) = true →
     containsSub hfHost (trimS url) = true →
     endsWithS sfxSafetensors (toLowerS (hubNormalize (trimS url))) = false →
     get_lora_from_url env fs url = ⟨.err .onlySafetensors, [], []⟩) ∧
    (trimS url ≠ [] → pfx (lit "http") (trimS url) = true →
     containsSub hfHost (trimS url) = false →
     containsSub civHost (trimS url) = true →
     containsSub safeTensorMarker
       (if containsSub mvidStr (trimS url) = true then civitaiRewrite (trimS url)
        else trimS url) = false →
     get_lora_from_url env fs url = ⟨.err .onlySafetensors, [], []⟩) ∧
    (trimS url ≠ [] → pfx (lit "http") (trimS url) = true →
     containsSub hfHost (trimS url) = false →
     containsSub civHost (trimS url) = false →
     endsWithS sfxSafetensors
       ((splitOnChar '?' (toLowerS (trimS url))).getD 0 []) = false →
     get_lora_from_url env fs url = ⟨.err .onlySafetensors, [], []⟩) := by
  refine ⟨?_, ?_, ?_⟩
  · intro h1 h2 h3 h4
    rw [get_lora_hub_dispatch env fs url h1 h2 h3]
    have hnone : hfDerive (hubNormalize (trimS url)) = none := by
      unfold hfDerive
      rw [if_neg (by simp [h4])]
    unfold hubBranch
    rw [hnone]
  · intro h1 h2 h3 h4 h5
    rw [get_lora_civ_dispatch env fs url h1 h2 h3 h4]
    unfold civitaiBranch
    rw [if_neg (by simp [h5])]
  · intro h1 h2 h3 h4 h5
    rw [get_lora_gen_dispatch env fs url h1 h2 h3 h4]
    unfold genericBranch
    rw [if_neg (by rw [h5]; simp)]

/-- C2 witness: a generic URL whose path fails the suffix check is rejected
with no request and no write. -/
theorem invalid_format_rejected_witness :
    get_lora_from_url envW [] (lit "http://example.com/f.bin") =
      ⟨.err .onlySafetensors, [], []⟩ :=
  (invalid_format_rejected envW [] (lit "http://example.com/f.bin")).2.2
    (by decide) (by decide) (by decide) (by decide) (by decide)

theorem civitaiBranch_idem (env : Env) (fs fs' : List Str) (url p : Str)
    (reqs ws : List Str)
    (h : civitaiBranch env fs url = ⟨.ok p fs', reqs, ws⟩) :
    civitaiBranch env fs' url = ⟨.ok p fs', [], []⟩ := by
  simp only [civitaiBranch] at h ⊢
  generalize (if containsSub mvidStr url = true then civitaiRewrite url else url) = u at h ⊢
  split at h
  case isTrue hst =>
    rw [if_pos hst]
    split at h
    case isTrue hmem =>
      simp only [RunResult.mk.injEq, Outcome.ok.injEq] at h
      obtain ⟨⟨hp, hfs⟩, hreq, hws⟩ := h
      subst hp
      subst hfs
      rw [if_pos hmem]
    case isFalse hmem =>
      split at h
      case isTrue hnet =>
        simp only [RunResult.mk.injEq, Outcome.ok.injEq] at h
        obtain ⟨⟨hp, hfs⟩, hreq, hws⟩ := h
        subst hp
        subst hfs
        rw [if_pos (List.mem_cons_self _ _)]
      case isFalse hnet =>
        simp at h
  case isFalse hst =>
    simp at h

theorem genericBranch_idem (env : Env) (fs fs' : List Str) (url p : Str)
    (reqs ws : List Str)
    (h : genericBranch env fs url = ⟨.ok p fs', reqs, ws⟩) :
    genericBranch env fs' url = ⟨.ok p fs', [], []⟩ := by
  simp only [genericBranch] at h ⊢
  split at h
  case isTrue hst =>
    rw [if_pos hst]
    split at h
    case isTrue hmem =>
      simp only [RunResult.mk.injEq, Outcome.ok.injEq] at h
      obtain ⟨⟨hp, hfs⟩, hreq, hws⟩ := h
      subst hp
      subst hfs
      rw [if_pos hmem]
    case isFalse hmem =>
      split at h
      case isTrue hnet =>
        simp only [RunResult.mk.injEq, Outcome.ok.injEq] at h
        obtain ⟨⟨hp, hfs⟩, hreq, hws⟩ := h
        subst hp
        subst hfs
        rw [if_pos (List.mem_cons_self _ _)]
      case isFalse hnet =>
        simp at h
  case isFalse hst =>
    simp at h

/-- C3: after a successful resolution of a generic or marketplace reference
(not a hub reference), resolving the same reference again over the
resulting filesystem returns the identical local path and performs no
network request and no write: the cache-existence check short-circuits the
download. -/
theorem resolve_twice_cached (env : Env) (fs fs' : List Str) (url p : Str)
    (reqs ws : List Str)
    (hnothub : containsSub hfHost (trimS url) = false)
    (h : get_lora_from_url env fs url = ⟨.ok p fs', reqs, ws⟩) :
    get_lora_from_url env fs' url = ⟨.ok p fs', [], []⟩ := by
  have h1 : trimS url ≠ [] := by
    intro hc
    unfold get_lora_from_url at h
    rw [if_pos hc] at h
    simp at h
  have h2 : pfx (lit "http") (trimS url) = true := by
    cases hp : pfx (lit "http") (trimS url) with
    | true => rfl
    | false =>
      unfold get_lora_from_url at h
      rw [if_neg h1, if_pos hp] at h
      simp at h
  cases hciv : containsSub civHost (trimS url) with
  | true =>
    rw [get_lora_civ_dispatch env fs url h1 h2 hnothub hciv] at h
    rw [get_lora_civ_dispatch env fs' url h1 h2 hnothub hciv]
    exact civitaiBranch_idem env fs fs' (trimS url) p reqs ws h
  | false =>
    rw [get_lora_gen_dispatch env fs url h1 h2 hnothub hciv] at h
    rw [get_lora_gen_dispatch env fs' url h1 h2 hnothub hciv]
    exact genericBranch_idem env fs fs' (trimS url) p reqs ws h

/-- C3 witness: a concrete generic URL resolved twice; the second call hits
the cache file written by the first and performs no request. -/
theorem resolve_twice_cached_witness :
    get_lora_from_url envW
      [lit "cache" ++ ('/' :: lit "general") ++
        ('/' :: (lit "http://example.com/f.safetensors" ++ lit ".safetensors"))]
      (lit "http://example.com/f.safetensors") =
    ⟨.ok (lit "cache" ++ ('/' :: lit "general") ++
        ('/' :: (lit "http://example.com/f.safetensors" ++ lit ".safetensors")))
      [lit "cache" ++ ('/' :: lit "general") ++
        ('/' :: (lit "http://example.com/f.safetensors" ++ lit ".safetensors"))],
      [], []⟩ :=
  resolve_twice_cached envW []
    [lit "cache" ++ ('/' :: lit "general") ++
      ('/' :: (lit "http://example.com/f.safetensors" ++ lit ".safetensors"))]
    (lit "http://example.com/f.safetensors")
    (lit "cache" ++ ('/' :: lit "general") ++
      ('/' :: (lit "http://example.com/f.safetensors" ++ lit ".safetensors")))
    [lit "http://example.com/f.safetensors"]
    [lit "cache" ++ ('/' :: lit "general") ++
      ('/' :: (lit "http://example.com/f.safetensors" ++ lit ".safetensors"))]
    (by decide) (by decide)

/-- C4: a marketplace URL carrying a modelVersionId query parameter is
rewritten to the canonical download URL
https://civitai.com/api/download/models/id?type=Model&format=SafeTensor
before the SafeTensor validation runs (the rewritten URL passes it), and
resolving the modelVersionId form and the canonical form of the same
version id produces identical results — in particular the same hashed
cache path. -/
theorem mvid_rewrite_equiv (env : Env) (fs : List Str) (pre vid : Str)
    (hpre : containsSub mvidEq (pre ++ List.dropLast mvidEq) = false)
    (hvid : containsSub mvidEq vid = false)
    (hamp : ('&' : Char) ∉ vid)
    (hhttpPre : pfx (lit "http") pre = true)
    (hcivPre : containsSub civHost pre = true)
    (hhf1 : containsSub hfHost (pre ++ mvidEq ++ vid) = false)
    (hhf2 : containsSub hfHost (canonURL vid) = false)
    (hmvc : containsSub mvidStr (canonURL vid) = false)
    (htrim1 : trimS (pre ++ mvidEq ++ vid) = pre ++ mvidEq ++ vid)
    (htrim2 : trimS (canonURL vid) = canonURL vid) :
    civitaiRewrite (pre ++ mvidEq ++ vid) = canonURL vid ∧
    containsSub safeTensorMarker (civitaiRewrite (pre ++ mvidEq ++ vid)) = true ∧
    get_lora_from_url env fs (pre ++ mvidEq ++ vid) =
      get_lora_from_url env fs (canonURL vid) := by
  have hsplitEq : splitOnSub mvidEq (pre ++ mvidEq ++ vid) = [pre, vid] := by
    rw [List.append_assoc]
    exact splitOnSub_exact mvidEq pre vid hpre hvid
  have hrw : civitaiRewrite (pre ++ mvidEq ++ vid) = canonURL vid := by
    unfold civitaiRewrite
    rw [hsplitEq]
    have hg : ([pre, vid] : List Str).getD 1 [] = vid := rfl
    rw [hg]
    simp only [splitOnChar_no_sep '&' vid hamp, List.headD]
  have hmarker : containsSub safeTensorMarker (canonURL vid) = true := by
    unfold canonURL
    apply containsSub_append_right
    decide
  have hmvb : containsSub mvidStr (pre ++ mvidEq ++ vid) = true := by
    apply containsSub_append_left
    apply containsSub_append_right
    have he : mvidEq = mvidStr ++ ['='] := by decide
    rw [he]
    exact containsSub_of_pfx _ _ (pfx_append_self _ _)
  have hbadne : pre ++ mvidEq ++ vid ≠ [] := by
    intro hc
    rw [List.append_eq_nil, List.append_eq_nil] at hc
    exact absurd hc.1.2 (by decide)
  have hcanonne : canonURL vid ≠ [] := by
    unfold canonURL
    intro hc
    rw [List.append_eq_nil, List.append_eq_nil] at hc
    exact absurd hc.1.1 (by decide)
  have hbadhttp : pfx (lit "http") (pre ++ mvidEq ++ vid) = true := by
    exact pfx_append_of_pfx _ _ _ (pfx_append_of_pfx _ _ _ hhttpPre)
  have hcanonhttp : pfx (lit "http") (canonURL vid) = true := by
    unfold canonURL
    exact pfx_append_of_pfx _ _ _ (pfx_append_of_pfx _ _ _ (by decide))
  have hbadciv : containsSub civHost (pre ++ mvidEq ++ vid) = true := by
    exact containsSub_append_left _ _ _ (containsSub_append_left _ _ _ hcivPre)
  have hcanonciv : containsSub civHost (canonURL vid) = true := by
    unfold canonURL
    exact containsSub_append_left _ _ _ (containsSub_append_left _ _ _ (by decide))
  refine ⟨hrw, by rw [hrw]; exact hmarker, ?_⟩
  rw [get_lora_civ_dispatch env fs _ (by rw [htrim1]; exact hbadne)
    (by rw [htrim1]; exact hbadhttp) (by rw [htrim1]; exact hhf1)
    (by rw [htrim1]; exact hbadciv)]
  rw [get_lora_civ_dispatch env fs _ (by rw [htrim2]; exact hcanonne)
    (by rw [htrim2]; exact hcanonhttp) (by rw [htrim2]; exact hhf2)
    (by rw [htrim2]; exact hcanonciv)]
  rw [htrim1, htrim2]
  have hifbad : (if containsSub mvidStr (pre ++ mvidEq ++ vid) = true
      then civitaiRewrite (pre ++ mvidEq ++ vid) else pre ++ mvidEq ++ vid) = canonURL vid := by
    rw [if_pos hmvb, hrw]
  have hifcanon : (if containsSub mvidStr (canonURL vid) = true
      then civitaiRewrite (canonURL vid) else canonURL vid) = canonURL vid := by
    rw [if_neg (by simp [hmvc])]
  simp only [civitaiBranch]
  rw [hifbad, hifcanon]

/-- C4 witness: the two forms of a concrete version id resolve identically. -/
theorem mvid_rewrite_equiv_witness :
    civitaiRewrite (lit "https://civitai.com/models/111?" ++ mvidEq ++ lit "4077") =
      canonURL (lit "4077") ∧
    containsSub safeTensorMarker
      (civitaiRewrite (lit "https://civitai.com/models/111?" ++ mvidEq ++ lit "4077")) = true ∧
    get_lora_from_url envW [] (lit "https://civitai.com/models/111?" ++ mvidEq ++ lit "4077") =
      get_lora_from_url envW [] (canonURL (lit "4077")) :=
  mvid_rewrite_equiv envW [] (lit "https://civitai.com/models/111?") (lit "4077")
    (by decide) (by decide) (by decide) (by decide) (by decide) (by decide)
    (by decide) (by decide) (by decide) (by decide)

theorem civitaiBranch_ok_path (env : Env) (fs fs' : List Str) (url p : Str)
    (reqs ws : List Str)
    (h : civitaiBranch env fs url = ⟨.ok p fs', reqs, ws⟩) :
    p = env.cacheRoot ++ ('/' :: lit "civitai") ++
      ('/' :: get_filename_from_url env
        (if containsSub mvidStr url = true then civitaiRewrite url else url)
        (lit "safetensors")) := by
  simp only [civitaiBranch] at h
  generalize (if containsSub mvidStr url = true then civitaiRewrite url else url) = u at h ⊢
  split at h
  case isTrue hst =>
    split at h
    case isTrue hmem =>
      simp only [RunResult.mk.injEq, Outcome.ok.injEq] at h
      exact h.1.1.symm
    case isFalse hmem =>
      split at h
      case isTrue hnet =>
        simp only [RunResult.mk.injEq, Outcome.ok.injEq] at h
        exact h.1.1.symm
      case isFalse hnet =>
        simp at h
  case isFalse hst =>
    simp at h

/-- C5: the marketplace cache path does not depend on the CIVITAI_API_KEY
environment variable: the hashed filename is computed from the URL before
the token is appended, so two resolutions of the same marketplace
reference under environments differing only in the key yield the same
local path whenever both return one. -/
theorem cache_path_key_independent (env : Env) (k1 k2 : Option Str)
    (fs1 fs2 : List Str) (url p1 p2 : Str)
    (fsr1 fsr2 reqs1 reqs2 ws1 ws2 : List Str)
    (hciv : containsSub civHost (trimS url) = true)
    (hhf : containsSub hfHost (trimS url) = false)
    (h1 : get_lora_from_url { env with civitaiKey := k1 } fs1 url =
      ⟨.ok p1 fsr1, reqs1, ws1⟩)
    (h2 : get_lora_from_url { env with civitaiKey := k2 } fs2 url =
      ⟨.ok p2 fsr2, reqs2, ws2⟩) :
    p1 = p2 := by
  have hne : trimS url ≠ [] := by
    intro hc
    unfold get_lora_from_url at h1
    rw [if_pos hc] at h1
    simp at h1
  have hhttp : pfx (lit "http") (trimS url) = true := by
    cases hp : pfx (lit "http") (trimS url) with
    | true => rfl
    | false =>
      unfold get_lora_from_url at h1
      rw [if_neg hne, if_pos hp] at h1
      simp at h1
  rw [get_lora_civ_dispatch _ fs1 url hne hhttp hhf hciv] at h1
  rw [get_lora_civ_dispatch _ fs2 url hne hhttp hhf hciv] at h2
  rw [civitaiBranch_ok_path _ fs1 fsr1 (trimS url) p1 reqs1 ws1 h1,
    civitaiBranch_ok_path _ fs2 fsr2 (trimS url) p2 reqs2 ws2 h2]
  rfl

/-- C5 witness: no key versus a non-blank key — same cache path. -/
theorem cache_path_key_independent_witness :
    (lit "cache" ++ ('/' :: lit "civitai") ++
      ('/' :: (canonURL (lit "4077") ++ lit ".safetensors"))) =
    (lit "cache" ++ ('/' :: lit "civitai") ++
      ('/' :: (canonURL (lit "4077") ++ lit ".safetensors"))) :=
  cache_path_key_independent envW none (some (lit "SECRET")) [] []
    (canonURL (lit "4077"))
    (lit "cache" ++ ('/' :: lit "civitai") ++
      ('/' :: (canonURL (lit "4077") ++ lit ".safetensors")))
    (lit "cache" ++ ('/' :: lit "civitai") ++
      ('/' :: (canonURL (lit "4077") ++ lit ".safetensors")))
    [lit "cache" ++ ('/' :: lit "civitai") ++
      ('/' :: (canonURL (lit "4077") ++ lit ".safetensors"))]
    [lit "cache" ++ ('/' :: lit "civitai") ++
      ('/' :: (canonURL (lit "4077") ++ lit ".safetensors"))]
    [canonURL (lit "4077")]
    [canonURL (lit "4077") ++ lit "&token=" ++ lit "SECRET"]
    [lit "cache" ++ ('/' :: lit "civitai") ++
      ('/' :: (canonURL (lit "4077") ++ lit ".safetensors"))]
    [lit "cache" ++ ('/' :: lit "civitai") ++
      ('/' :: (canonURL (lit "4077") ++ lit ".safetensors"))]
    (by decide) (by decide) (by decide) (by decide)

theorem clampIdx_self (y n : ℕ) (h : y < n) : clampIdx (y : ℤ) n = y := by
  unfold clampIdx
  rw [min_eq_left (by omega), max_eq_right (by omega)]
  omega

theorem reflectIdx_self (y n : ℕ) (h : y < n) : reflectIdx (y : ℤ) n = y := by
  unfold reflectIdx
  rw [if_neg (by omega), if_neg (by omega)]
  omega

theorem natCast_add_sub_cancel (pt y : ℕ) : ((pt + y : ℕ) : ℤ) - (pt : ℕ) = (y : ℕ) := by
  push_cast
  ring

/-- C6 counterexample: a 1 × 1 image padded to 2 × 2 with the reflect method
does not yield a 2 × 2 padded image: torch's reflection padding rejects pad
amounts that are not smaller than the corresponding source dimension
(pad_bottom = 1 is not < height 1), so the call raises instead. -/
theorem image_padding_cex :
    imagePaddingAdvancedRun ℚ 0 img1W 2 2 (lit "reflect") =
      .error PadErr.reflectTooLarge := by
  rfl

/-- C6 amended: with both target dimensions at most the source dimensions
the input image is returned unchanged. With both target dimensions at least
the source dimensions (source non-empty; and, for the reflect method only,
every pad amount smaller than the corresponding source dimension — the
condition torch's reflection padding enforces, without which the call
raises), the node returns an image of exactly the requested width and
height, the original content centred with any odd pad remainder on the
trailing (bottom/right) side, and the border filled according to the
chosen constant-zero / replicate / reflect policy. -/
theorem image_padding_spec (α : Type) (zero : α) (img : Image α)
    (width height : ℕ) (method : Str) :
    (width ≤ img.width → height ≤ img.height →
      imagePaddingAdvancedRun α zero img width height method = .ok img) ∧
    (img.width ≤ width → img.height ≤ height → 1 ≤ img.width → 1 ≤ img.height →
     (method ≠ lit "constant" → method ≠ lit "replicate" →
        (height - img.height) / 2 < img.height ∧
        (height - img.height) - (height - img.height) / 2 < img.height ∧
        (width - img.width) / 2 < img.width ∧
        (width - img.width) - (width - img.width) / 2 < img.width) →
     ∃ out, imagePaddingAdvancedRun α zero img width height method = .ok out ∧
       out.batch = img.batch ∧ out.channels = img.channels ∧
       out.height = height ∧ out.width = width ∧
       (∀ b y x c, y < img.height → x < img.width →
         out.pix b ((height - img.height) / 2 + y) ((width - img.width) / 2 + x) c =
           img.pix b y x c) ∧
       (method = lit "constant" → ∀ b y x c, y < height → x < width →
         (y < (height - img.height) / 2 ∨ (height - img.height) / 2 + img.height ≤ y ∨
          x < (width - img.width) / 2 ∨ (width - img.width) / 2 + img.width ≤ x) →
         out.pix b y x c = zero) ∧
       (method = lit "replicate" → ∀ b y x c, y < height → x < width →
         out.pix b y x c =
           img.pix b (clampIdx ((y : ℤ) - (((height - img.height) / 2 : ℕ) : ℤ)) img.height)
             (clampIdx ((x : ℤ) - (((width - img.width) / 2 : ℕ) : ℤ)) img.width) c) ∧
       (method ≠ lit "constant" → method ≠ lit "replicate" →
        ∀ b y x c, y < height → x < width →
         out.pix b y x c =
           img.pix b (reflectIdx ((y : ℤ) - (((height - img.height) / 2 : ℕ) : ℤ)) img.height)
             (reflectIdx ((x : ℤ) - (((width - img.width) / 2 : ℕ) : ℤ)) img.width) c)) := by
  constructor
  · intro hw hh
    simp only [imagePaddingAdvancedRun]
    rw [if_neg (by omega : ¬ width > img.width), if_neg (by omega : ¬ height > img.height),
      if_pos ⟨rfl, rfl⟩]
  · intro hw hh hw1 hh1 hrefl
    have hpw : (if width > img.width then width - img.width else 0) = width - img.width := by
      split <;> omega
    have hph : (if height > img.height then height - img.height else 0) =
        height - img.height := by
      split <;> omega
    simp only [imagePaddingAdvancedRun, hpw, hph]
    by_cases hz : height - img.height = 0 ∧ width - img.width = 0
    · rw [if_pos hz]
      have hhe : img.height = height := by omega
      have hwe : img.width = width := by omega
      have h1 : (height - img.height) / 2 = 0 := by omega
      have h2 : (width - img.width) / 2 = 0 := by omega
      refine ⟨img, rfl, rfl, rfl, hhe, hwe, ?_, ?_, ?_, ?_⟩
      · intro b y x c hy hx
        rw [h1, h2, Nat.zero_add, Nat.zero_add]
      · intro hm b y x c hy hx hr
        exfalso
        rw [h1, h2] at hr
        omega
      · intro hm b y x c hy hx
        rw [h1, h2,
          show ((y : ℤ) - ((0 : ℕ) : ℤ)) = (y : ℤ) by push_cast; ring,
          show ((x : ℤ) - ((0 : ℕ) : ℤ)) = (x : ℤ) by push_cast; ring,
          clampIdx_self y _ (by omega), clampIdx_self x _ (by omega)]
      · intro hma hmb b y x c hy hx
        rw [h1, h2,
          show ((y : ℤ) - ((0 : ℕ) : ℤ)) = (y : ℤ) by push_cast; ring,
          show ((x : ℤ) - ((0 : ℕ) : ℤ)) = (x : ℤ) by push_cast; ring,
          reflectIdx_self y _ (by omega), reflectIdx_self x _ (by omega)]
    · rw [if_neg hz]
      by_cases hm1 : method = lit "constant"
      · rw [if_pos hm1]
        simp only [F_padConstant]
        refine ⟨_, rfl, rfl, rfl, by dsimp only; omega, by dsimp only; omega,
          ?_, ?_, ?_, ?_⟩
        · intro b y x c hy hx
          dsimp only
          rw [if_pos (by omega)]
          rw [show (height - img.height) / 2 + y - (height - img.height) / 2 = y by omega,
            show (width - img.width) / 2 + x - (width - img.width) / 2 = x by omega]
        · intro hm b y x c hy hx hr
          dsimp only
          rw [if_neg (by omega)]
        · intro hm
          exact absurd (hm1 ▸ hm : lit "constant" = lit "replicate") (by decide)
        · intro hma hmb
          exact absurd hm1 hma
      · by_cases hm2 : method = lit "replicate"
        · rw [if_neg hm1, if_pos hm2]
          simp only [F_padReplicate]
          rw [if_pos ⟨hh1, hw1⟩]
          refine ⟨_, rfl, rfl, rfl, by dsimp only; omega, by dsimp only; omega,
            ?_, ?_, ?_, ?_⟩
          · intro b y x c hy hx
            dsimp only
            rw [natCast_add_sub_cancel, natCast_add_sub_cancel,
              clampIdx_self y _ hy, clampIdx_self x _ hx]
          · intro hm
            exact absurd (hm2 ▸ hm : lit "replicate" = lit "constant") (by decide)
          · intro hm b y x c hy hx
            rfl
          · intro hma hmb
            exact absurd hm2 hmb
        · rw [if_neg hm1, if_neg hm2]
          obtain ⟨hb1, hb2, hb3, hb4⟩ := hrefl hm1 hm2
          simp only [F_padReflect]
          rw [if_pos ⟨hb1, hb2, hb3, hb4⟩]
          refine ⟨_, rfl, rfl, rfl, by dsimp only; omega, by dsimp only; omega,
            ?_, ?_, ?_, ?_⟩
          · intro b y x c hy hx
            dsimp only
            rw [natCast_add_sub_cancel, natCast_add_sub_cancel,
              reflectIdx_self y _ hy, reflectIdx_self x _ hx]
          · intro hm
            exact absurd hm hm1
          · intro hm
            exact absurd hm hm2
          · intro hma hmb b y x c hy hx
            rfl

/-- C6 witness: the no-padding case returns the input, and a 1 × 1 image
padded to 3 × 3 with the constant method yields a 3 × 3 centred image. -/
theorem image_padding_spec_witness :
    imagePaddingAdvancedRun ℚ 0 imgW 2 1 (lit "constant") = .ok imgW ∧
    ∃ out, imagePaddingAdvancedRun ℚ 0 img1W 3 3 (lit "constant") = .ok out ∧
      out.batch = img1W.batch ∧ out.channels = img1W.channels ∧
      out.height = 3 ∧ out.width = 3 ∧
      (∀ b y x c, y < img1W.height → x < img1W.width →
        out.pix b ((3 - img1W.height) / 2 + y) ((3 - img1W.width) / 2 + x) c =
          img1W.pix b y x c) ∧
      (lit "constant" = lit "constant" → ∀ b y x c, y < 3 → x < 3 →
        (y < (3 - img1W.height) / 2 ∨ (3 - img1W.height) / 2 + img1W.height ≤ y ∨
         x < (3 - img1W.width) / 2 ∨ (3 - img1W.width) / 2 + img1W.width ≤ x) →
        out.pix b y x c = 0) ∧
      (lit "constant" = lit "replicate" → ∀ b y x c, y < 3 → x < 3 →
        out.pix b y x c =
          img1W.pix b (clampIdx ((y : ℤ) - (((3 - img1W.height) / 2 : ℕ) : ℤ)) img1W.height)
            (clampIdx ((x : ℤ) - (((3 - img1W.width) / 2 : ℕ) : ℤ)) img1W.width) c) ∧
      (lit "constant" ≠ lit "constant" → lit "constant" ≠ lit "replicate" →
       ∀ b y x c, y < 3 → x < 3 →
        out.pix b y x c =
          img1W.pix b (reflectIdx ((y : ℤ) - (((3 - img1W.height) / 2 : ℕ) : ℤ)) img1W.height)
            (reflectIdx ((x : ℤ) - (((3 - img1W.width) / 2 : ℕ) : ℤ)) img1W.width) c) :=
  ⟨(image_padding_spec ℚ 0 imgW 2 1 (lit "constant")).1 (by decide) (by decide),
   (image_padding_spec ℚ 0 img1W 3 3 (lit "constant")).2 (by decide) (by decide)
     (by decide) (by decide) (fun hc _ => absurd rfl hc)⟩

theorem clamp01_of_mem (x : ℚ) (h0 : 0 ≤ x) (h1 : x ≤ 1) : clamp01 x = x := by
  unfold clamp01
  rw [max_eq_left h0, min_eq_left h1]

theorem qmod_eq_sub (a b : ℚ) (k : ℤ) (hb : 0 < b) (h1 : b * k ≤ a) (h2 : a < b * (k + 1)) :
    qmod a b = a - b * k := by
  have hfl : ⌊a / b⌋ = k := by
    rw [Int.floor_eq_iff]
    constructor
    · rw [le_div_iff hb]
      push_cast
      linarith
    · rw [div_lt_iff hb]
      push_cast
      linarith
  unfold qmod
  rw [hfl]

/-- HSV round trip: the Color-mode saturation pass with image_saturation 1
is the identity on non-negative pixels (exact rational arithmetic). -/
theorem hsv_adjust_id (r g b : ℚ) (hr : 0 ≤ r) (hg : 0 ≤ g) (hb : 0 ≤ b) :
    hsvAdjust 1 r g b = (r, g, b) := by
  simp only [hsvAdjust, mul_one, mul_div_assoc]
  set v := max r (max g b) with hveq
  set mn := min r (min g b) with hmneq
  have hvr : r ≤ v := le_max_left _ _
  have hvg : g ≤ v := le_trans (le_max_left g b) (le_max_right r (max g b))
  have hvb : b ≤ v := le_trans (le_max_right g b) (le_max_right r (max g b))
  have hmr : mn ≤ r := min_le_left _ _
  have hmg : mn ≤ g := le_trans (min_le_right r (min g b)) (min_le_left g b)
  have hmb : mn ≤ b := le_trans (min_le_right r (min g b)) (min_le_right g b)
  have hm0 : 0 ≤ mn := le_min hr (le_min hg hb)
  by_cases hdeg : v - mn = 0
  · -- degenerate grey pixel: r = g = b, c = 0, m = v
    have hrv : r = v := le_antisymm hvr (by linarith)
    have hgv : g = v := le_antisymm hvg (by linarith)
    have hbv : b = v := le_antisymm hvb (by linarith)
    rw [if_pos hbv]
    have hs0 : (if v ≠ 0 then (v - mn) / v else 0) = 0 := by
      rcases eq_or_ne v 0 with h0 | h0
      · rw [if_neg (by simp [h0])]
      · rw [if_pos h0, hdeg, zero_div]
    have hcl0 : clamp01 (0 : ℚ) = 0 := by norm_num [clamp01]
    rw [hs0, hcl0, mul_zero]
    have hrg0 : r - g = 0 := by linarith
    rw [hrg0, zero_div, mul_zero, add_zero]
    rw [if_neg (by norm_num), if_neg (by norm_num), if_neg (by norm_num),
      if_neg (by norm_num), if_pos (by norm_num)]
    simp only [Prod.mk.injEq]
    refine ⟨by rw [zero_mul, zero_add, sub_zero]; linarith,
      by rw [zero_add, sub_zero]; linarith,
      by rw [zero_add, sub_zero]; linarith⟩
  · have hmnlt : mn < v :=
      lt_of_le_of_ne (le_trans hmr hvr) (fun he => hdeg (by rw [he]; ring))
    have hvpos : 0 < v := lt_of_le_of_lt hm0 hmnlt
    have hvne : v ≠ 0 := ne_of_gt hvpos
    have hdpos : 0 < v - mn := by linarith
    rw [if_pos hvne,
      clamp01_of_mem ((v - mn) / v) (div_nonneg (by linarith) (le_of_lt hvpos))
        (by rw [div_le_one hvpos]; linarith),
      show v * ((v - mn) / v) = v - mn from by field_simp]
    by_cases hbv : b = v
    · -- b is the maximum
      rw [if_pos hbv]
      have hgb : g ≤ b := by rw [hbv]; exact hvg
      have hrb : r ≤ b := by rw [hbv]; exact hvr
      have hmnrg : mn = min r g := by rw [hmneq, min_eq_left hgb]
      rcases le_total r g with hrg | hgr
      · -- the minimum is r
        have hmnr : mn = r := by rw [hmnrg, min_eq_left hrg]
        rw [← hbv, hmnr] at hdpos ⊢
        have hbne : b - r ≠ 0 := ne_of_gt hdpos
        have hq1 : -1 ≤ (r - g) / (b - r) := by
          rw [le_div_iff hdpos]
          linarith
        have hq2 : (r - g) / (b - r) ≤ 0 := by
          rw [div_le_iff hdpos]
          linarith
        rw [if_neg (by intro hc; linarith), if_neg (by intro hc; linarith),
          if_neg (by intro hc; linarith)]
        rcases eq_or_lt_of_le hrg with hrgeq | hrglt
        · -- r = g: hue is exactly 4/6, the fifth mask fires with x = 0
          rw [← hrgeq, sub_self, zero_div, mul_zero, add_zero]
          rw [if_neg (by norm_num), if_pos (by norm_num)]
          rw [show (240 : ℚ) / 360 * 6 = 4 from by norm_num]
          rw [show qmod (4 : ℚ) 2 = 0 from by
            rw [qmod_eq_sub 4 2 2 (by norm_num) (by norm_num) (by norm_num)]; norm_num]
          simp only [Prod.mk.injEq]
          exact ⟨by norm_num, by ring, by ring⟩
        · -- r < g: the fourth mask fires
          have hq3 : (r - g) / (b - r) < 0 := by
            rw [div_lt_iff hdpos]
            linarith
          rw [if_pos (by linarith :
            (240 + 60 * ((r - g) / (b - r))) / 360 < 4 / 6)]
          rw [show (240 + 60 * ((r - g) / (b - r))) / 360 * 6 =
            4 + (r - g) / (b - r) from by ring]
          rw [show qmod (4 + (r - g) / (b - r)) 2 = 2 + (r - g) / (b - r) from by
            rw [qmod_eq_sub _ _ 1 (by norm_num) (by push_cast; linarith)
              (by push_cast; linarith)]
            push_cast
            ring]
          rw [show |(2 : ℚ) + (r - g) / (b - r) - 1| = 1 + (r - g) / (b - r) from by
            rw [show (2 : ℚ) + (r - g) / (b - r) - 1 = 1 + (r - g) / (b - r) from by ring]
            exact abs_of_nonneg (by linarith)]
          simp only [Prod.mk.injEq]
          refine ⟨by ring, ?_, by ring⟩
          field_simp
          try ring
      · -- the minimum is g
        have hmng : mn = g := by rw [hmnrg, min_eq_right hgr]
        rw [← hbv, hmng] at hdpos ⊢
        have hbne : b - g ≠ 0 := ne_of_gt hdpos
        have hq1 : 0 ≤ (r - g) / (b - g) := div_nonneg (by linarith) (le_of_lt hdpos)
        have hq2 : (r - g) / (b - g) ≤ 1 := by
          rw [div_le_one hdpos]
          linarith
        rw [if_neg (by intro hc; linarith), if_neg (by intro hc; linarith),
          if_neg (by intro hc; linarith), if_neg (by intro hc; linarith)]
        rcases eq_or_lt_of_le hrb with hrbe | hrbl
        · -- r = b: hue is exactly 5/6, the sixth mask fires with x = c
          rw [hrbe, div_self hbne]
          rw [if_neg (by norm_num), if_pos (by norm_num)]
          rw [show (240 + 60 * (1 : ℚ)) / 360 * 6 = 5 from by norm_num]
          rw [show qmod (5 : ℚ) 2 = 1 from by
            rw [qmod_eq_sub 5 2 2 (by norm_num) (by norm_num) (by norm_num)]; norm_num]
          simp only [Prod.mk.injEq]
          exact ⟨by norm_num, by ring, by norm_num⟩
        · -- r < b: the fifth mask fires
          have hq3 : (r - g) / (b - g) < 1 := by
            rw [div_lt_one hdpos]
            linarith
          rw [if_pos (by linarith :
            (240 + 60 * ((r - g) / (b - g))) / 360 < 5 / 6)]
          rw [show (240 + 60 * ((r - g) / (b - g))) / 360 * 6 =
            4 + (r - g) / (b - g) from by ring]
          rw [show qmod (4 + (r - g) / (b - g)) 2 = (r - g) / (b - g) from by
            rw [qmod_eq_sub _ _ 2 (by norm_num) (by push_cast; linarith)
              (by push_cast; linarith)]
            push_cast
            ring]
          rw [show |(r - g) / (b - g) - 1| = 1 - (r - g) / (b - g) from by
            rw [abs_of_nonpos (by linarith)]
            ring]
          simp only [Prod.mk.injEq]
          refine ⟨?_, by ring, by ring⟩
          field_simp
          try ring
    · rw [if_neg hbv]
      have hbltv : b < v := lt_of_le_of_ne hvb hbv
      by_cases hgv : g = v
      · -- g is the (strict over b) maximum
        rw [if_pos hgv]
        have hbg : b ≤ g := by rw [hgv]; exact le_of_lt hbltv
        have hrg : r ≤ g := by rw [hgv]; exact hvr
        have hbgs : b < g := by rw [hgv]; exact hbltv
        have hmnrb : mn = min r b := by rw [hmneq, min_eq_right hbg]
        rcases le_or_lt r b with hrbb | hbr
        · -- the minimum is r
          have hmnr : mn = r := by rw [hmnrb, min_eq_left hrbb]
          rw [← hgv, hmnr] at hdpos ⊢
          have hgne : g - r ≠ 0 := ne_of_gt hdpos
          have hq1 : 0 ≤ (b - r) / (g - r) := div_nonneg (by linarith) (le_of_lt hdpos)
          have hq2 : (b - r) / (g - r) < 1 := by
            rw [div_lt_one hdpos]
            linarith
          rw [if_neg (by intro hc; linarith), if_neg (by intro hc; linarith),
            if_pos (by linarith : (120 + 60 * ((b - r) / (g - r))) / 360 < 3 / 6)]
          rw [show (120 + 60 * ((b - r) / (g - r))) / 360 * 6 =
            2 + (b - r) / (g - r) from by ring]
          rw [show qmod (2 + (b - r) / (g - r)) 2 = (b - r) / (g - r) from by
            rw [qmod_eq_sub _ _ 1 (by norm_num) (by push_cast; linarith)
              (by push_cast; linarith)]
            push_cast
            ring]
          rw [show |(b - r) / (g - r) - 1| = 1 - (b - r) / (g - r) from by
            rw [abs_of_nonpos (by linarith)]
            ring]
          simp only [Prod.mk.injEq]
          refine ⟨by ring, by ring, ?_⟩
          field_simp
          try ring
        · -- the minimum is b
          have hmnb : mn = b := by rw [hmnrb, min_eq_right (le_of_lt hbr)]
          rw [← hgv, hmnb] at hdpos ⊢
          have hgne : g - b ≠ 0 := ne_of_gt hdpos
          have hq1 : -1 ≤ (b - r) / (g - b) := by
            rw [le_div_iff hdpos]
            linarith
          have hq2 : (b - r) / (g - b) < 0 := by
            rw [div_lt_iff hdpos]
            linarith
          rw [if_neg (by intro hc; linarith),
            if_pos (by linarith : (120 + 60 * ((b - r) / (g - b))) / 360 < 2 / 6)]
          rw [show (120 + 60 * ((b - r) / (g - b))) / 360 * 6 =
            2 + (b - r) / (g - b) from by ring]
          rw [show qmod (2 + (b - r) / (g - b)) 2 = 2 + (b - r) / (g - b) from by
            rw [qmod_eq_sub _ _ 0 (by norm_num) (by push_cast; linarith)
              (by push_cast; linarith)]
            push_cast
            ring]
          rw [show |(2 : ℚ) + (b - r) / (g - b) - 1| = 1 + (b - r) / (g - b) from by
            rw [show (2 : ℚ) + (b - r) / (g - b) - 1 = 1 + (b - r) / (g - b) from by ring]
            exact abs_of_nonneg (by linarith)]
          simp only [Prod.mk.injEq]
          refine ⟨?_, by ring, by ring⟩
          field_simp
          try ring
      · -- r is the (strict over g and b) maximum
        rw [if_neg hgv]
        have hrv : r = v := by
          rcases max_choice r (max g b) with h1 | h1
          · rw [hveq, h1]
          · rcases max_choice g b with h2 | h2
            · exact absurd (hveq.trans (h1.trans h2)).symm hgv
            · exact absurd (hveq.trans (h1.trans h2)).symm hbv
        have hgltv : g < v := lt_of_le_of_ne hvg hgv
        have hgr : g < r := by rw [hrv]; exact hgltv
        have hbrr : b < r := by rw [hrv]; exact hbltv
        have hmngb : mn = min g b := by
          rw [hmneq, min_eq_right (le_trans (min_le_left g b) (le_of_lt hgr))]
        rcases le_or_lt b g with hbg | hgb
        · -- the minimum is b
          have hmnb : mn = b := by rw [hmngb, min_eq_right hbg]
          rw [← hrv, hmnb] at hdpos ⊢
          have hrne : r - b ≠ 0 := ne_of_gt hdpos
          have hq1 : 0 ≤ (g - b) / (r - b) := div_nonneg (by linarith) (le_of_lt hdpos)
          have hq2 : (g - b) / (r - b) < 1 := by
            rw [div_lt_one hdpos]
            linarith
          rw [show qmod (60 * ((g - b) / (r - b))) 360 = 60 * ((g - b) / (r - b)) from by
            rw [qmod_eq_sub _ _ 0 (by norm_num) (by push_cast; linarith)
              (by push_cast; linarith)]
            push_cast
            ring]
          rw [if_pos (by linarith : 60 * ((g - b) / (r - b)) / 360 < 1 / 6)]
          rw [show 60 * ((g - b) / (r - b)) / 360 * 6 = (g - b) / (r - b) from by ring]
          rw [show qmod ((g - b) / (r - b)) 2 = (g - b) / (r - b) from by
            rw [qmod_eq_sub _ _ 0 (by norm_num) (by push_cast; linarith)
              (by push_cast; linarith)]
            push_cast
            ring]
          rw [show |(g - b) / (r - b) - 1| = 1 - (g - b) / (r - b) from by
            rw [abs_of_nonpos (by linarith)]
            ring]
          simp only [Prod.mk.injEq]
          refine ⟨by ring, ?_, by ring⟩
          field_simp
          try ring
        · -- the minimum is g
          have hmng : mn = g := by rw [hmngb, min_eq_left (le_of_lt hgb)]
          rw [← hrv, hmng] at hdpos ⊢
          have hrne : r - g ≠ 0 := ne_of_gt hdpos
          have hq1 : -1 < (g - b) / (r - g) := by
            rw [lt_div_iff hdpos]
            linarith
          have hq2 : (g - b) / (r - g) < 0 := by
            rw [div_lt_iff hdpos]
            linarith
          rw [show qmod (60 * ((g - b) / (r - g))) 360 =
              60 * ((g - b) / (r - g)) + 360 from by
            rw [qmod_eq_sub _ _ (-1) (by norm_num) (by push_cast; linarith)
              (by push_cast; linarith)]
            push_cast
            ring]
          rw [if_neg (by intro hc; linarith), if_neg (by intro hc; linarith),
            if_neg (by intro hc; linarith), if_neg (by intro hc; linarith),
            if_neg (by intro hc; linarith),
            if_pos (by linarith : 5 / 6 ≤ (60 * ((g - b) / (r - g)) + 360) / 360)]
          rw [show (60 * ((g - b) / (r - g)) + 360) / 360 * 6 =
            6 + (g - b) / (r - g) from by ring]
          rw [show qmod (6 + (g - b) / (r - g)) 2 = 2 + (g - b) / (r - g) from by
            rw [qmod_eq_sub _ _ 2 (by norm_num) (by push_cast; linarith)
              (by push_cast; linarith)]
            push_cast
            ring]
          rw [show |(2 : ℚ) + (g - b) / (r - g) - 1| = 1 + (g - b) / (r - g) from by
            rw [show (2 : ℚ) + (g - b) / (r - g) - 1 = 1 + (g - b) / (r - g) from by ring]
            exact abs_of_nonneg (by linarith)]
          simp only [Prod.mk.injEq]
          refine ⟨by ring, by ring, ?_⟩
          field_simp
          try ring

/-- C7 counterexample: with intensity 0 but mode "Black and White", a pure
red pixel is collapsed to its luminance 0.299, so the node does not return
the input unchanged for every setting of the remaining parameters. -/
theorem film_grain_zero_cex :
    (apply_film_grain grainEnvW redImgW 0 1 0 0 1 (lit "Black and White")).pix 0 0 0 ≠
      redImgW.pix 0 0 0 ∧
    (apply_film_grain grainEnvW redImgW 0 1 0 0 1 (lit "Black and White")).pix 0 0 0 =
      (0.299, 0.299, 0.299) := by
  have hv : (apply_film_grain grainEnvW redImgW 0 1 0 0 1 (lit "Black and White")).pix 0 0 0 =
      (0.299, 0.299, 0.299) := by
    simp only [apply_film_grain]
    rw [show redImgW.pix 0 0 0 = ((1 : ℚ), (0 : ℚ), (0 : ℚ)) from rfl]
    dsimp only
    simp only [mul_zero, zero_mul, add_zero]
    rw [if_pos trivial]
    rw [if_neg (by decide : ¬ (lit "Black and White" = lit "Color"))]
    norm_num [clamp01]
  refine ⟨?_, hv⟩
  rw [hv]
  intro hc
  have hp : redImgW.pix 0 0 0 = (1, 0, 0) := rfl
  rw [hp] at hc
  exact absurd hc (by norm_num)

/-- C7 amended: with intensity 0, mode "Color", and image_saturation 1, the
film grain node returns every in-range ([0,1]) pixel unchanged, for every
noise draw, resize behaviour, grain size, grain saturation, and brightness
impact; with mode "Black and White" or image_saturation ≠ 1 the image is in
general altered even at intensity 0. -/
theorem film_grain_zero_intensity (envN : GrainEnv) (img : RGBImage)
    (grain_size grain_saturation brightness_impact : ℚ) (b y x : ℕ)
    (p1 p2 p3 : ℚ) (hp : img.pix b y x = (p1, p2, p3))
    (h1 : 0 ≤ p1) (h2 : p1 ≤ 1) (h3 : 0 ≤ p2) (h4 : p2 ≤ 1)
    (h5 : 0 ≤ p3) (h6 : p3 ≤ 1) :
    (apply_film_grain envN img 0 grain_size grain_saturation brightness_impact 1
      (lit "Color")).pix b y x = img.pix b y x := by
  simp only [apply_film_grain]
  rw [hp]
  dsimp only
  simp only [mul_zero, zero_mul, add_zero]
  rw [if_pos trivial]
  rw [hsv_adjust_id p1 p2 p3 h1 h3 h5]
  dsimp only
  rw [clamp01_of_mem p1 h1 h2, clamp01_of_mem p2 h3 h4, clamp01_of_mem p3 h5 h6]

/-- C7 witness: a concrete in-range pixel is unchanged at intensity 0 in
Color mode with image_saturation 1 (grain size 2, brightness impact 1/2). -/
theorem film_grain_zero_intensity_witness :
    (apply_film_grain grainEnvW mixImgW 0 2 0 (1/2) 1 (lit "Color")).pix 0 0 0 =
      mixImgW.pix 0 0 0 :=
  film_grain_zero_intensity grainEnvW mixImgW 2 0 (1/2) 0 0 0 (1/2) (1/4) (3/4) rfl
    (by norm_num) (by norm_num) (by norm_num) (by norm_num) (by norm_num) (by norm_num)

/-- Every ramp curve maps progress strictly inside (0, 1) to a value
strictly inside (0, 1), except bounce (E is any strictly monotone stand-in
for math.exp with E 0 = 1; unknown ramp names fall back to linear). -/
theorem rampApply_mem (E : ℚ → ℚ) (hE0 : E 0 = 1) (hEmono : StrictMono E)
    (t : Str) (ht : t ≠ lit "bounce") (p : ℚ) (h0 : 0 < p) (h1 : p < 1) :
    0 < rampApply E t p ∧ rampApply E t p < 1 := by
  have h1' : 0 < 1 - p := by linarith
  unfold rampApply
  rw [if_neg ht]
  split_ifs with c1 c2 c3 c4 c5 c6
  · exact ⟨h0, h1⟩
  · unfold rampEaseIn
    exact ⟨mul_pos h0 h0, by nlinarith⟩
  · unfold rampEaseOut
    constructor
    · nlinarith [mul_pos h1' h1']
    · nlinarith [mul_pos h1' h1']
  · unfold rampEaseInOut
    constructor
    · nlinarith [mul_pos h0 h0]
    · nlinarith [mul_pos (mul_pos h1' h1') (by linarith : (0 : ℚ) < 1 + 2 * p)]
  · unfold rampExponential
    have hE1 : 1 < E 1 := lt_of_le_of_lt (le_of_eq hE0.symm) (hEmono (by norm_num))
    have hEp1 : E p < E 1 := hEmono h1
    have hEp0 : 1 < E p := lt_of_le_of_lt (le_of_eq hE0.symm) (hEmono h0)
    constructor
    · apply div_pos <;> linarith
    · rw [div_lt_one (by linarith)]
      linarith
  · unfold rampSmoothstep
    constructor
    · nlinarith [mul_pos h0 h0]
    · nlinarith [mul_pos (mul_pos h1' h1') (by linarith : (0 : ℚ) < 1 + 2 * p)]
  · exact ⟨h0, h1⟩

/-- Every ramp curve maps progress 1 to exactly 1 (for exponential this
needs E 1 ≠ 1, which follows from strict monotonicity and E 0 = 1; bounce
lands exactly on 7.5625 · (1/22)² + 0.984375 = 1). -/
theorem rampApply_one (E : ℚ → ℚ) (hE0 : E 0 = 1) (hEmono : StrictMono E)
    (t : Str) : rampApply E t 1 = 1 := by
  unfold rampApply
  split_ifs
  · rfl
  · norm_num [rampEaseIn]
  · norm_num [rampEaseOut]
  · norm_num [rampEaseInOut]
  · unfold rampExponential
    have hE1 : 1 < E 1 := lt_of_le_of_lt (le_of_eq hE0.symm) (hEmono (by norm_num))
    rw [div_self (by linarith)]
  · norm_num [rampSmoothstep]
  · norm_num [rampBounce]
  · rfl

/-- C8 counterexample: with threshold N = 1 the step-0 value is exactly
end (progress is 1), not strictly between start 0 and end 1. -/
theorem ramp_step0_cex :
    get_value expW 0 1 1 (lit "linear") 0 = 1 ∧
    ¬ (0 < get_value expW 0 1 1 (lit "linear") 0 ∧
       get_value expW 0 1 1 (lit "linear") 0 < 1) := by
  have h : get_value expW 0 1 1 (lit "linear") 0 = 1 := by
    unfold get_value rampApply
    rw [if_neg (by norm_num), if_pos rfl]
    norm_num
  refine ⟨h, ?_⟩
  rw [h]
  norm_num

/-- C8 amended: with threshold N ≥ 2 and start ≠ end, the step-0 value lies
strictly between start and end for every ramp type except bounce (unknown
names fall back to linear, which is monotone; math.exp is any strictly
monotone E with E 0 = 1); and for every ramp type and parameters, any step
whose current step i + 1 is at least the threshold returns exactly end. -/
theorem ramp_spec (E : ℚ → ℚ) (hE0 : E 0 = 1) (hEmono : StrictMono E)
    (start endv : ℚ) (N : ℕ) (ramp_type : Str) (i : ℕ) :
    (2 ≤ N → start ≠ endv → ramp_type ≠ lit "bounce" →
      min start endv < get_value E start endv N ramp_type 0 ∧
      get_value E start endv N ramp_type 0 < max start endv) ∧
    (N ≤ i + 1 → get_value E start endv N ramp_type i = endv) := by
  constructor
  · intro hN2 hse hbounce
    have hNq : (2 : ℚ) ≤ (N : ℚ) := by exact_mod_cast hN2
    unfold get_value
    rw [if_neg (by omega : ¬ 0 + 1 > N)]
    rw [show ((0 + 1 : ℕ) : ℚ) = 1 from by norm_num]
    have hp0 : 0 < 1 / (N : ℚ) := by positivity
    have hp1 : 1 / (N : ℚ) < 1 := by
      rw [div_lt_one (by linarith)]
      linarith
    have hf := rampApply_mem E hE0 hEmono ramp_type hbounce (1 / (N : ℚ)) hp0 hp1
    rcases lt_or_gt_of_ne hse with hlt | hgt
    · rw [min_eq_left (le_of_lt hlt), max_eq_right (le_of_lt hlt)]
      constructor
      · nlinarith [hf.1, hf.2]
      · nlinarith [hf.1, hf.2]
    · rw [min_eq_right (le_of_lt hgt), max_eq_left (le_of_lt hgt)]
      constructor
      · nlinarith [hf.1, hf.2]
      · nlinarith [hf.1, hf.2]
  · intro hNi
    unfold get_value
    by_cases hgt : i + 1 > N
    · rw [if_pos hgt]
    · rw [if_neg hgt]
      have hiN : i + 1 = N := by omega
      have hN1 : 1 ≤ N := by omega
      have hcast : ((i + 1 : ℕ) : ℚ) = (N : ℚ) := by exact_mod_cast hiN
      have hNne : (N : ℚ) ≠ 0 := by
        have : (1 : ℚ) ≤ (N : ℚ) := by exact_mod_cast hN1
        linarith
      rw [hcast, div_self hNne, rampApply_one E hE0 hEmono ramp_type]
      ring

/-- C8 witness: linear ramp from 0 to 1 with threshold 2 gives 1/2 at step
0 (strictly between), and returns exactly 1 from step 3 on. -/
theorem ramp_spec_witness :
    (min (0 : ℚ) 1 < get_value expW 0 1 2 (lit "linear") 0 ∧
     get_value expW 0 1 2 (lit "linear") 0 < max (0 : ℚ) 1) ∧
    get_value expW 0 1 2 (lit "linear") 3 = 1 :=
  ⟨(ramp_spec expW (by norm_num [expW]) (fun a b hab => by simp only [expW]; linarith) 0 1 2
      (lit "linear") 3).1 (by norm_num) (by norm_num) (by decide),
   (ramp_spec expW (by norm_num [expW]) (fun a b hab => by simp only [expW]; linarith) 0 1 2
      (lit "linear") 3).2 (by norm_num)⟩

/-- C10: get_value never modifies the instance state; since nothing in the
repository ever assigns the step attribute i, a fresh instance reads i = 0
on every invocation, so all of the first k+1 invocations with the same
parameters return the same value — the curve value at step 1 of the
threshold — and that value is exactly end when the threshold is 1. -/
theorem ramp_fresh_constant (E : ℚ → ℚ) (hE0 : E 0 = 1) (hEmono : StrictMono E)
    (start endv : ℚ) (N : ℕ) (ramp_type : Str) (k : ℕ) (st : FluxReduxState) :
    (get_value_node E st start endv N ramp_type).2 = st ∧
    (1 ≤ N →
      (iterateRamp E start endv N ramp_type k ⟨none, none⟩).1 =
        start + (endv - start) * rampApply E ramp_type (1 / (N : ℚ))) ∧
    (N = 1 → (iterateRamp E start endv N ramp_type k ⟨none, none⟩).1 = endv) := by
  have hiter : ∀ (m : ℕ) (st0 : FluxReduxState),
      iterateRamp E start endv N ramp_type m st0 =
        get_value_node E st0 start endv N ramp_type := by
    intro m
    induction m with
    | zero => intro st0; rfl
    | succ m ih =>
      intro st0
      rw [iterateRamp, ih]
      rfl
  refine ⟨rfl, ?_, ?_⟩
  · intro hN1
    rw [hiter k ⟨none, none⟩]
    unfold get_value_node get_value
    dsimp only [Option.getD]
    rw [if_neg (by omega : ¬ 0 + 1 > N)]
    rw [show ((0 + 1 : ℕ) : ℚ) = 1 from by norm_num]
  · intro hN1
    subst hN1
    rw [hiter k ⟨none, none⟩]
    unfold get_value_node get_value
    dsimp only [Option.getD]
    rw [if_neg (by omega : ¬ 0 + 1 > 1)]
    rw [show ((0 + 1 : ℕ) : ℚ) / ((1 : ℕ) : ℚ) = 1 from by norm_num]
    rw [rampApply_one E hE0 hEmono ramp_type]
    ring

/-- C10 witness: five invocations of a fresh instance, smoothstep from 2 to
6 with threshold 4, all return 2 + 4 · smoothstep(1/4), and the state is
untouched; with threshold 1 the value is exactly end. -/
theorem ramp_fresh_constant_witness :
    (get_value_node expW ⟨none, none⟩ 2 6 4 (lit "smoothstep")).2 = ⟨none, none⟩ ∧
    (iterateRamp expW 2 6 4 (lit "smoothstep") 4 ⟨none, none⟩).1 =
      2 + (6 - 2) * rampApply expW (lit "smoothstep") (1 / ((4 : ℕ) : ℚ)) ∧
    (iterateRamp expW 3 7 1 (lit "bounce") 4 ⟨none, none⟩).1 = 7 :=
  ⟨(ramp_fresh_constant expW (by norm_num [expW]) (fun a b hab => by simp only [expW]; linarith)
      2 6 4 (lit "smoothstep") 4 ⟨none, none⟩).1,
   (ramp_fresh_constant expW (by norm_num [expW]) (fun a b hab => by simp only [expW]; linarith)
      2 6 4 (lit "smoothstep") 4 ⟨none, none⟩).2.1 (by norm_num),
   (ramp_fresh_constant expW (by norm_num [expW]) (fun a b hab => by simp only [expW]; linarith)
      3 7 1 (lit "bounce") 4 ⟨none, none⟩).2.2 rfl⟩

/-- C9: whenever load_lora actually resolves a path (the zero-strength
short-circuit does not fire), the instance afterwards caches exactly the
payload for that path: the stored path is the resolved one and the stored
payload is the payload just used. When the previous state already held a
payload for the same path it is reused with no disk read; when it held a
payload for a different path (or nothing), the old payload is dropped and
the file is loaded from disk. This is the shared logic of
LoraLoaderFromURL.load_lora and HFHubLoraLoader.load_lora. -/
theorem lora_cache_spec (α : Type) (disk : Str → α) (sm sc : ℚ)
    (st : LoaderState α) (p : Str) (hstr : ¬ (sm = 0 ∧ sc = 0)) :
    (load_lora_cache α disk sm sc st p).state.loaded_lora_path = some p ∧
    (load_lora_cache α disk sm sc st p).state.loaded_lora =
      (load_lora_cache α disk sm sc st p).used ∧
    (∀ l, st.loaded_lora = some l → st.loaded_lora_path = some p →
      (load_lora_cache α disk sm sc st p).readDisk = false ∧
      (load_lora_cache α disk sm sc st p).used = some l) ∧
    ((st.loaded_lora = none ∨ st.loaded_lora_path ≠ some p) →
      (load_lora_cache α disk sm sc st p).readDisk = true ∧
      (load_lora_cache α disk sm sc st p).used = some (disk p)) := by
  unfold load_lora_cache
  rw [if_neg hstr]
  rcases hL : st.loaded_lora with _ | l
  · simp only [hL]
    refine ⟨by trivial, by trivial, ?_, fun hdum => ⟨by trivial, by trivial⟩⟩
    intro l hcon
    exact absurd hcon (by simp)
  · by_cases hp : st.loaded_lora_path = some p
    · simp only [hL, if_pos hp]
      refine ⟨hp, by trivial, ?_, ?_⟩
      · intro l' hl' hpath
        injection hl' with he
        rw [he]
        exact ⟨trivial, rfl⟩
      · rintro (hcon | hcon)
        · exact absurd hcon (by simp)
        · exact absurd hp hcon
    · simp only [hL, if_neg hp]
      exact ⟨by trivial, by trivial, fun l' hl' hpath => absurd hpath hp,
        fun hdum => ⟨by trivial, by trivial⟩⟩

/-- C9 witness: a state caching payload 7 for path "a" re-serves it without
a disk read for path "a", per the cache-hit clause of the theorem. -/
theorem lora_cache_spec_witness :
    (load_lora_cache ℕ (fun _ => 9) 1 1 ⟨some 7, some (lit "a")⟩ (lit "a")).readDisk
      = false ∧
    (load_lora_cache ℕ (fun _ => 9) 1 1 ⟨some 7, some (lit "a")⟩ (lit "a")).used
      = some 7 :=
  (lora_cache_spec ℕ (fun _ => 9) 1 1 ⟨some 7, some (lit "a")⟩ (lit "a")
    (by norm_num)).2.2.1 7 rfl rfl
